import Mathlib

/-!
# Verification of the rich-text document model (`DocumentModel.ts`)

Shallow embedding of the document model of the repository: a `Document` is a
list of paragraphs, each carrying UTF-16 text (modelled as a list of code
units) and a run-length-encoded style ledger.  The embedding follows the two
source files `src/cicada/Document/DocumentModel.ts` (the canonical editor
class: insert/delete/applyStyle/copy) and the earlier variant holding the live
`pasteText` implementation.

Modelling conventions:
* A string is a `List Nat` of UTF-16 code units; `String.prototype.slice`,
  `Array.prototype.slice`, `Array.prototype.splice` and `String.prototype.trim`
  are given their ECMAScript semantics (`jsSliceList`, `jsSplice`, `jsTrim`).
* The external `Intl.Segmenter` collaborator is a parameter
  `seg : List Nat → List (List Nat)` returning the list of grapheme clusters;
  concrete theorems instantiate it with `segmentUnits`, which implements the
  UAX #29 boundaries relevant to the inputs used here (a surrogate pair forms
  one cluster, every other code unit is its own cluster).
* `text.normalize('NFC')` is a parameter `nfc`; concrete theorems use the
  identity, their inputs being NFC-normal.
* A style object is an ordered association list of key/value pairs
  (`Style`); `JSON.stringify` equality is list equality and the object spread
  `{...base, ...patch}` is `spreadStyle` (existing keys updated in place, new
  keys appended), matching JavaScript property-order semantics.
* `console.warn` is a side effect with no bearing on state and is dropped.
-/

/-- A style record: ordered association list of key/value pairs, as a
JavaScript object literal.  `JSON.stringify` equality of two style objects is
plain equality of these lists. -/
abbrev Style := List (Nat × Nat)

/-- A style run: `{ length: graphemes, style }`. -/
structure Run where
  length : Nat
  style : Style
deriving DecidableEq, Repr

/-- A paragraph: UTF-16 text, style runs, layout hint. -/
structure Paragraph where
  text : List Nat
  runs : List Run
  yOffset : Int
deriving DecidableEq, Repr

/-- A document: ordered paragraphs. -/
structure Document where
  paragraphs : List Paragraph
deriving DecidableEq, Repr

/-- A position argument `{ paragraphIndex, offset }`; fields are JavaScript
numbers, hence integers here. -/
structure Pos where
  paragraphIndex : Int
  offset : Int
deriving DecidableEq, Repr

/-- One clipboard paragraph `{ text, runs }`. -/
structure ClipPara where
  text : List Nat
  runs : List Run
deriving DecidableEq, Repr

/-- Clipboard data returned by `copyText`. -/
structure ClipboardData where
  paragraphs : List ClipPara
deriving DecidableEq, Repr

/-- The error kinds thrown by the editor: position validation failure,
range-order failure, and the `TypeError` raised by dereferencing a missing
paragraph. -/
inductive DocErr where
  | positionOutOfRange
  | invalidRange
  | typeError
deriving DecidableEq, Repr

/-! ## ECMAScript primitives -/

/-- Resolve a possibly negative slice index against a length, as
`String.prototype.slice` / `Array.prototype.slice` do. -/
def jsResolveIndex (len : Nat) (i : Int) : Nat :=
  if i < 0 then ((len : Int) + i).toNat else min i.toNat len

/-- `l.slice(start, end)` with optional end, ECMAScript semantics. -/
def jsSliceList (l : List α) (start : Int) (stop : Option Int) : List α :=
  let s := jsResolveIndex l.length start
  let e := match stop with
    | none => l.length
    | some j => jsResolveIndex l.length j
  (l.take e).drop s

/-- `l.slice(s, e)` for already non-negative bounds (used where the source has
validated offsets). -/
def sliceCU (l : List α) (s e : Nat) : List α :=
  (l.take e).drop s

/-- `Array.prototype.splice(start, deleteCount, ...items)`: a negative
`deleteCount` deletes nothing. -/
def jsSplice (l : List α) (start : Nat) (deleteCount : Int) (items : List α) : List α :=
  l.take start ++ items ++ l.drop (start + deleteCount.toNat)

/-- In-place update of one array element, `l[i] = f(l[i])`. -/
def modifyIdx (l : List α) (i : Nat) (f : α → α) : List α :=
  match l, i with
  | [], _ => []
  | a :: as, 0 => f a :: as
  | a :: as, n + 1 => a :: modifyIdx as n f

/-- The JavaScript whitespace code units relevant to `String.prototype.trim`
(for the code points appearing in this development). -/
def isJsSpace (u : Nat) : Bool :=
  u == 32 || u == 9 || u == 10 || u == 11 || u == 12 || u == 13

/-- `String.prototype.trim`. -/
def jsTrim (l : List Nat) : List Nat :=
  ((l.dropWhile isJsSpace).reverse.dropWhile isJsSpace).reverse

/-! ## The grapheme segmenter collaborator -/

/-- High surrogate code unit. -/
def isHighSurrogate (u : Nat) : Bool := 0xD800 ≤ u && u < 0xDC00

/-- Low surrogate code unit. -/
def isLowSurrogate (u : Nat) : Bool := 0xDC00 ≤ u && u < 0xE000

/-- Concrete grapheme segmenter used for concrete inputs: a surrogate pair is
one cluster, any other unit its own cluster.  This agrees with
`Intl.Segmenter` on text free of combining sequences, which covers every
concrete input in this file. -/
def segmentUnits : List Nat → List (List Nat)
  | [] => []
  | [u] => [[u]]
  | u :: v :: rest =>
    if isHighSurrogate u && isLowSurrogate v then [u, v] :: segmentUnits rest
    else [u] :: segmentUnits (v :: rest)

/-- One entry of the object spread: a key of `base` keeps its slot, its value
overridden by `patch` when `patch` holds the key. -/
def spreadEntry (patch : Style) (kv : Nat × Nat) : Nat × Nat :=
  match patch.find? (fun p => p.1 == kv.1) with
  | some p => (kv.1, p.2)
  | none => kv

/-- The object spread `{...base, ...patch}`: keys of `base` keep their slots,
values overridden by `patch` where present; keys of `patch` absent from `base`
are appended in `patch` order. -/
def spreadStyle (base patch : Style) : Style :=
  base.map (spreadEntry patch) ++
    patch.filter (fun p => !(base.any (fun kv => kv.1 == p.1)))

/-! ## DocumentModel private helpers -/

/-- `getGraphemeCount`: number of grapheme clusters. -/
def getGraphemeCount (seg : List Nat → List (List Nat)) (text : List Nat) : Nat :=
  (seg text).length

/-- `areStylesEqual`: `JSON.stringify(a) === JSON.stringify(b)`. -/
def areStylesEqual (a b : Style) : Bool := a == b

/-- Worker of `mergeAdjacentRuns`: fold the tail into the accumulated last
run whenever styles agree. -/
def mergeLoop (acc : Run) : List Run → List Run
  | [] => [acc]
  | r :: rs =>
    if areStylesEqual acc.style r.style then
      mergeLoop {acc with length := acc.length + r.length} rs
    else
      acc :: mergeLoop r rs

/-- `mergeAdjacentRuns`. -/
def mergeAdjacentRuns : List Run → List Run
  | [] => []
  | r :: rs => mergeLoop r rs

/-- Worker of `findRunAtOffset`, carrying the index and cumulative length. -/
def findRunAtOffsetAux (offset : Nat) : List Run → Nat → Nat → Int × Nat
  | [], _, _ => (-1, 0)
  | r :: rs, i, cum =>
    if cum + r.length > offset then ((i : Int), offset - cum)
    else findRunAtOffsetAux offset rs (i + 1) (cum + r.length)

/-- `findRunAtOffset` on a run list: the run holding a grapheme offset, or the
sentinel `(-1, 0)`. -/
def findRunAtOffsetRuns (runs : List Run) (offset : Nat) : Int × Nat :=
  findRunAtOffsetAux offset runs 0 0

/-- `findRunAtOffset(paragraph, offset)`. -/
def findRunAtOffset (p : Paragraph) (offset : Nat) : Int × Nat :=
  findRunAtOffsetRuns p.runs offset

/-- Sum of run lengths. -/
def runTotal (runs : List Run) : Nat :=
  runs.foldr (fun r n => r.length + n) 0

/-- Worker of `updateRunLengths`: clamp each run so cumulative lengths never
pass the grapheme count. -/
def updateRunLengthsAux (count : Nat) : List Run → Nat → List Run
  | [], _ => []
  | r :: rs, cur =>
    let next := min (cur + r.length) count
    ⟨next - cur, r.style⟩ :: updateRunLengthsAux count rs next

/-- `updateRunLengths` on a run list: truncate to the grapheme count, then
drop zero-length runs (the `console.warn` on mismatch is a side effect and is
not modelled). -/
def updateRunLengthsRuns (runs : List Run) (count : Nat) : List Run :=
  (updateRunLengthsAux count runs 0).filter (fun r => r.length > 0)

/-- `updateRunLengths(paragraph)`. -/
def updateRunLengths (seg : List Nat → List (List Nat)) (p : Paragraph) : Paragraph :=
  { p with runs := updateRunLengthsRuns p.runs (getGraphemeCount seg p.text) }

/-! ## Validation -/

/-- Does a (integer) paragraph index address an existing paragraph? -/
def validParagraphIndex (d : Document) (pi : Int) : Prop :=
  0 ≤ pi ∧ pi < (d.paragraphs.length : Int)

instance (d : Document) (pi : Int) : Decidable (validParagraphIndex d pi) :=
  inferInstanceAs (Decidable (_ ∧ _))

/-- Paragraph lookup `this.document.paragraphs[i]` for an integer index. -/
def getParagraph? (d : Document) (pi : Int) : Option Paragraph :=
  if 0 ≤ pi then d.paragraphs.get? pi.toNat else none

/-- `validatePosition`: paragraph index in `[0, paragraphCount)` and offset in
`[0, graphemeCount]`, else an error. -/
def validatePosition (seg : List Nat → List (List Nat)) (d : Document) (p : Pos) :
    Except DocErr Unit :=
  match getParagraph? d p.paragraphIndex with
  | none => .error .positionOutOfRange
  | some para =>
    if p.offset < 0 ∨ p.offset > (getGraphemeCount seg para.text : Int) then
      .error .positionOutOfRange
    else .ok ()

/-- The range-order test shared by `deleteText`, `applyStyle` and `copyText`:
start strictly after end in paragraph-then-offset order. -/
def startAfterEnd (s e : Pos) : Prop :=
  s.paragraphIndex > e.paragraphIndex ∨
    (s.paragraphIndex = e.paragraphIndex ∧ s.offset > e.offset)

instance (s e : Pos) : Decidable (startAfterEnd s e) :=
  inferInstanceAs (Decidable (_ ∨ _))

/-! ## sliceTextByGraphemes -/

/-- `sliceTextByGraphemes(index, start, end?)`: empty when the paragraph is
missing or its text empty, otherwise the concatenation of the
`Array.prototype.slice` of the cluster list. -/
def sliceTextByGraphemes (seg : List Nat → List (List Nat)) (d : Document)
    (index : Int) (start : Int) (stop : Option Int) : List Nat :=
  match getParagraph? d index with
  | none => []
  | some p =>
    if p.text = [] then []
    else (jsSliceList (seg p.text) start stop).flatten

/-! ## insertText -/

/-- `insertTextIntoRun` acting on the run list: extend the addressed run when
styles agree, split it three ways otherwise. -/
def insertTextIntoRunRuns (runs : List Run) (runIndex offsetInRun textLength : Nat)
    (style : Style) : List Run :=
  match runs.get? runIndex with
  | none => runs
  | some run =>
    if areStylesEqual run.style style then
      modifyIdx runs runIndex (fun r => {r with length := r.length + textLength})
    else
      jsSplice runs runIndex 1
        ((if offsetInRun > 0 then [⟨offsetInRun, run.style⟩] else []) ++
          [⟨textLength, style⟩] ++
          (if offsetInRun < run.length then [⟨run.length - offsetInRun, run.style⟩] else []))

/-- `splitRunsAtOffset`: split the run containing `offset` in two when the
offset is strictly inside it. -/
def splitRunsAtOffsetRuns (runs : List Run) (offset : Nat) : List Run :=
  let fr := findRunAtOffsetRuns runs offset
  if fr.1 ≠ -1 ∧ fr.2 > 0 then
    match runs.get? fr.1.toNat with
    | none => runs
    | some run =>
      if fr.2 < run.length then
        jsSplice runs fr.1.toNat 1
          [⟨fr.2, run.style⟩, ⟨run.length - fr.2, run.style⟩]
      else runs
  else runs

/-- Split a unit list at every newline (code unit 10), as
`String.prototype.split('\n')`. -/
def splitOnNewline (l : List Nat) : List (List Nat) :=
  match l with
  | [] => [[]]
  | u :: rest =>
    let tail := splitOnNewline rest
    if u == 10 then [] :: tail
    else match tail with
      | [] => [[u]]
      | t :: ts => (u :: t) :: ts

/-- Single-paragraph body of `insertText` (no newline in the inserted text):
code-unit splice of the text, then run bookkeeping, then `updateRunLengths`. -/
def insertPlain (seg : List Nat → List (List Nat)) (p : Paragraph) (offset : Nat)
    (text : List Nat) (style : Style) : Paragraph :=
  let textGraphemeCount := getGraphemeCount seg text
  let p := { p with text := sliceCU p.text 0 offset ++ text ++ p.text.drop offset }
  let fr := findRunAtOffset p offset
  let p :=
    if fr.1 = -1 then { p with runs := p.runs ++ [⟨textGraphemeCount, style⟩] }
    else { p with runs := insertTextIntoRunRuns p.runs fr.1.toNat fr.2 textGraphemeCount style }
  updateRunLengths seg p

/-- `insertTextWithNewlines`: split the paragraph, seed the new paragraphs. -/
def insertTextWithNewlines (seg : List Nat → List (List Nat)) (d : Document)
    (pi offset : Nat) (text : List Nat) (style : Style) : Document :=
  let parts := splitOnNewline text
  let beforeText := sliceTextByGraphemes seg d pi 0 (some offset)
  let afterText := sliceTextByGraphemes seg d pi (offset : Int) none
  let d := { d with paragraphs := modifyIdx d.paragraphs pi (fun p =>
      { p with
        text := beforeText ++ parts.headI,
        runs := splitRunsAtOffsetRuns p.runs offset }) }
  let newParas : List Paragraph :=
    ((parts.drop 1).dropLast.map fun t =>
      ⟨t, [⟨getGraphemeCount seg t, style⟩], 0⟩) ++
    (if parts.length > 1 then
      let t := parts.getLast!.append afterText
      [⟨t, [⟨getGraphemeCount seg t, style⟩], 0⟩]
    else [])
  { d with paragraphs := jsSplice d.paragraphs (pi + 1) 0 newParas }

/-- `insertText(position, text, style)`. -/
def insertText (seg : List Nat → List (List Nat)) (nfc : List Nat → List Nat)
    (d : Document) (pos : Pos) (text : List Nat) (style : Style) :
    Except DocErr Document :=
  match validatePosition seg d pos with
  | .error e => .error e
  | .ok _ =>
    let text := nfc text
    if text.contains 10 then
      .ok (insertTextWithNewlines seg d pos.paragraphIndex.toNat pos.offset.toNat text style)
    else
      let f := fun p => insertPlain seg p pos.offset.toNat text style
      .ok { d with paragraphs := modifyIdx d.paragraphs pos.paragraphIndex.toNat f }

/-! ## deleteText -/

/-- `updateRunsAfterDeletion` on the run list.  The `remainingLength`
arithmetic is signed, exactly as in the JavaScript source. -/
def updateRunsAfterDeletionRuns (runs : List Run) (startOffset length : Nat) : List Run :=
  let fs := findRunAtOffsetRuns runs startOffset
  let fe := findRunAtOffsetRuns runs (startOffset + length)
  if fs.1 = -1 then runs
  else
    match runs.get? fs.1.toNat with
    | none => runs
    | some firstRun =>
      let lastRun :=
        if 0 ≤ fe.1 then (runs.get? fe.1.toNat).getD firstRun else firstRun
      if fs.1 = fe.1 then
        let newLen : Int := (firstRun.length : Int) - (length : Int)
        if newLen ≤ 0 then jsSplice runs fs.1.toNat 1 []
        else modifyIdx runs fs.1.toNat (fun r => {r with length := newLen.toNat})
      else
        let remainingLength : Int :=
          (fs.2 : Int) +
            ((lastRun.length : Int) -
              ((startOffset : Int) + (length : Int) - ((startOffset : Int) - (fs.2 : Int))))
        if remainingLength > 0 then
          jsSplice
            (modifyIdx runs fs.1.toNat (fun r => {r with length := remainingLength.toNat}))
            (fs.1.toNat + 1) (fe.1 - fs.1) []
        else
          jsSplice runs fs.1.toNat (fe.1 - fs.1 + 1) []

/-- `deleteWithinParagraph` as a paragraph transformer. -/
def deleteWithinParagraph (seg : List Nat → List (List Nat)) (p : Paragraph)
    (startOffset endOffset : Nat) : Paragraph :=
  let graphemes := seg p.text
  let actualStart := startOffset
  let actualEnd := min graphemes.length endOffset
  let p := { p with
    text := (graphemes.take actualStart).flatten ++ (graphemes.drop actualEnd).flatten }
  let p := { p with runs := updateRunsAfterDeletionRuns p.runs actualStart (actualEnd - actualStart) }
  updateRunLengths seg p

/-- `updateRunsAfterMultiParagraphDeletion`, producing the surviving
paragraph's run list; `newCount` is the grapheme count of the merged text. -/
def multiParagraphDeletionRuns (startRuns : List Run) (startOffset : Nat)
    (endRuns : List Run) (endOffset : Nat) (newCount : Nat) : List Run :=
  let fs := findRunAtOffsetRuns startRuns startOffset
  let trimmed :=
    if fs.1 ≠ -1 then
      if fs.2 > 0 then
        modifyIdx (startRuns.take (fs.1.toNat + 1)) fs.1.toNat
          (fun r => {r with length := fs.2})
      else startRuns.take fs.1.toNat
    else []
  let appended := trimmed ++
    (endRuns.foldl (fun (acc : List Run × Nat) run =>
        let runStart := endOffset - acc.2
        let keep := run.length - runStart
        (if acc.2 + run.length > endOffset ∧ keep > 0 then
          acc.1 ++ [⟨keep, run.style⟩] else acc.1,
         acc.2 + run.length)) ([], 0)).1
  let merged := mergeAdjacentRuns appended
  match merged with
  | [] => [⟨newCount, []⟩]
  | first :: _ =>
    if merged.all (fun r => areStylesEqual r.style first.style) then
      [⟨newCount, first.style⟩]
    else merged

/-- `deleteAcrossParagraphs`. -/
def deleteAcrossParagraphs (seg : List Nat → List (List Nat)) (d : Document)
    (spi soff epi eoff : Nat) : Document :=
  let startParagraph := (d.paragraphs.get? spi).getD ⟨[], [], 0⟩
  let endParagraph := (d.paragraphs.get? epi).getD ⟨[], [], 0⟩
  let newText := sliceTextByGraphemes seg d spi 0 (some soff) ++
                 sliceTextByGraphemes seg d epi (eoff : Int) none
  let newRuns := multiParagraphDeletionRuns startParagraph.runs soff
    endParagraph.runs eoff (getGraphemeCount seg newText)
  let survivor := updateRunLengths seg
    { startParagraph with text := newText, runs := newRuns }
  { d with paragraphs :=
      (modifyIdx d.paragraphs spi (fun _ => survivor)).take (spi + 1) ++
        d.paragraphs.drop (epi + 1) }

/-- `deleteText(start, end)`. -/
def deleteText (seg : List Nat → List (List Nat)) (d : Document) (s e : Pos) :
    Except DocErr Document :=
  match validatePosition seg d s with
  | .error err => .error err
  | .ok _ =>
    match validatePosition seg d e with
    | .error err => .error err
    | .ok _ =>
      if startAfterEnd s e then .error .invalidRange
      else if s.paragraphIndex = e.paragraphIndex then
        let f := fun p => deleteWithinParagraph seg p s.offset.toNat e.offset.toNat
        .ok { d with paragraphs := modifyIdx d.paragraphs s.paragraphIndex.toNat f }
      else
        .ok (deleteAcrossParagraphs seg d s.paragraphIndex.toNat s.offset.toNat
              e.paragraphIndex.toNat e.offset.toNat)

/-! ## applyStyle -/

/-- The run-rebuilding loop of `applyStyleToSingleParagraph`: each run is kept,
or split into the parts before/inside/after the styled range, the inside part
receiving the spread-merged style. -/
def applyRangeAux (a b : Nat) (patch : Style) : List Run → Nat → List Run
  | [], _ => []
  | r :: rs, cur =>
    let runStart := cur
    let runEnd := cur + r.length
    let parts :=
      if runEnd ≤ a ∨ runStart ≥ b then [r]
      else
        (if runStart < a then [⟨a - runStart, r.style⟩] else []) ++
        [⟨min runEnd b - max runStart a, spreadStyle r.style patch⟩] ++
        (if runEnd > b then [⟨runEnd - b, r.style⟩] else [])
    parts ++ applyRangeAux a b patch rs (cur + r.length)

/-- `applyStyleToSingleParagraph` as a paragraph transformer. -/
def applyStyleToParagraph (startOffset endOffset : Nat) (patch : Style)
    (p : Paragraph) : Paragraph :=
  { p with runs := mergeAdjacentRuns (applyRangeAux startOffset endOffset patch p.runs 0) }

/-- `applyStyleAcrossParagraphs`: style the tail of the first paragraph, all
of each interior paragraph, and the head of the last, three independent
single-paragraph passes. -/
def applyStyleAcrossParagraphs (seg : List Nat → List (List Nat)) (d : Document)
    (spi soff epi eoff : Nat) (patch : Style) : Document :=
  let d1 := { d with paragraphs := modifyIdx d.paragraphs spi (fun p =>
      applyStyleToParagraph soff (getGraphemeCount seg p.text) patch p) }
  let d2 := (List.range' (spi + 1) (epi - (spi + 1))).foldl
    (fun dd i => { dd with paragraphs := modifyIdx dd.paragraphs i (fun p =>
        applyStyleToParagraph 0 (getGraphemeCount seg p.text) patch p) }) d1
  { d2 with paragraphs := modifyIdx d2.paragraphs epi (fun p =>
      applyStyleToParagraph 0 eoff patch p) }

/-- `applyStyle(start, end, style)`. -/
def applyStyle (seg : List Nat → List (List Nat)) (d : Document) (s e : Pos)
    (patch : Style) : Except DocErr Document :=
  match validatePosition seg d s with
  | .error err => .error err
  | .ok _ =>
    match validatePosition seg d e with
    | .error err => .error err
    | .ok _ =>
      if startAfterEnd s e then .error .invalidRange
      else if s.paragraphIndex = e.paragraphIndex then
        let f := applyStyleToParagraph s.offset.toNat e.offset.toNat patch
        .ok { d with paragraphs := modifyIdx d.paragraphs s.paragraphIndex.toNat f }
      else
        .ok (applyStyleAcrossParagraphs seg d s.paragraphIndex.toNat s.offset.toNat
              e.paragraphIndex.toNat e.offset.toNat patch)

/-! ## copyText -/

/-- The extraction loop of `extractTextRange`, iterating from the start run to
the last addressed run with the cumulative offset (re)started at zero, as in
the source. -/
def extractLoop (a b : Nat) : List Run → Nat → List Run
  | [], _ => []
  | r :: rs, cur =>
    let runStart := a - cur
    let runEnd := min r.length (b - cur)
    (if runEnd > runStart then [⟨runEnd - runStart, r.style⟩] else []) ++
      extractLoop a b rs (cur + r.length)

/-- `extractTextRange(paragraph, startOffset, endOffset)`: the text is the
code-unit slice of the paragraph text, trimmed. -/
def extractTextRange (seg : List Nat → List (List Nat)) (p : Paragraph)
    (startOffset endOffset : Nat) : ClipPara :=
  let text := jsTrim (sliceCU p.text startOffset endOffset)
  let fs := findRunAtOffsetRuns p.runs startOffset
  let fe := findRunAtOffsetRuns p.runs endOffset
  if fs.1 = -1 then
    ⟨text, [⟨getGraphemeCount seg text, ((p.runs.head?).map Run.style).getD []⟩]⟩
  else
    let last := if 0 ≤ fe.1 then fe.1.toNat else p.runs.length - 1
    ⟨text, extractLoop startOffset endOffset
      ((p.runs.drop fs.1.toNat).take (last + 1 - fs.1.toNat)) 0⟩

/-- `copyText(start, end)`. -/
def copyText (seg : List Nat → List (List Nat)) (d : Document) (s e : Pos) :
    Except DocErr ClipboardData :=
  match validatePosition seg d s with
  | .error err => .error err
  | .ok _ =>
    match validatePosition seg d e with
    | .error err => .error err
    | .ok _ =>
      if startAfterEnd s e then .error .invalidRange
      else if s.paragraphIndex = e.paragraphIndex then
        let p := ((d.paragraphs.get? s.paragraphIndex.toNat).getD ⟨[], [], 0⟩)
        .ok ⟨[extractTextRange seg p s.offset.toNat e.offset.toNat]⟩
      else
        let firstP := ((d.paragraphs.get? s.paragraphIndex.toNat).getD ⟨[], [], 0⟩)
        let lastP := ((d.paragraphs.get? e.paragraphIndex.toNat).getD ⟨[], [], 0⟩)
        let middles := ((d.paragraphs.drop (s.paragraphIndex.toNat + 1)).take
            (e.paragraphIndex.toNat - (s.paragraphIndex.toNat + 1))).map
          (fun p => ClipPara.mk p.text p.runs)
        .ok ⟨[extractTextRange seg firstP s.offset.toNat
                (getGraphemeCount seg firstP.text)] ++
              middles ++
              [extractTextRange seg lastP 0 e.offset.toNat]⟩

/-! ## pasteText (earlier source variant, the live implementation) -/

/-- Locate the run containing an (integer, unvalidated) offset for
`insertRunsAtOffset` / `updateRunsForSplit`: the first run index whose block
extends past the offset, with the cumulative count before it. -/
def pasteFindRunAux (offset : Int) : List Run → Nat → Nat → Nat × Nat
  | [], i, cum => (i, cum)
  | r :: rs, i, cum =>
    if ((cum : Int) + r.length) ≤ offset then pasteFindRunAux offset rs (i + 1) (cum + r.length)
    else (i, cum)

def pasteFindRun (runs : List Run) (offset : Int) : Nat × Nat :=
  pasteFindRunAux offset runs 0 0

/-- `insertRunsAtOffset(paragraph, offset, runsToInsert)` on the run list
(earlier variant): split the containing run, splice the foreign runs in, and
merge. -/
def insertRunsAtOffsetRuns (runs : List Run) (offset : Int) (runsToInsert : List Run) :
    List Run :=
  let fr := pasteFindRun runs offset
  let newRuns :=
    match runs.get? fr.1 with
    | some currentRun =>
      let splitPoint : Int := offset - (fr.2 : Int)
      (runs.take fr.1) ++
      (if splitPoint > 0 then [⟨splitPoint.toNat, currentRun.style⟩] else []) ++
      runsToInsert ++
      (if splitPoint < (currentRun.length : Int) then
        [⟨((currentRun.length : Int) - splitPoint).toNat, currentRun.style⟩] else []) ++
      runs.drop (fr.1 + 1)
    | none => runs.take fr.1 ++ runsToInsert
  mergeAdjacentRuns newRuns

/-- `updateRunsForSplit(paragraph, splitPoint)` (earlier variant): split the
containing run in two when the point is strictly inside it. -/
def updateRunsForSplitRuns (runs : List Run) (splitPoint : Int) : List Run :=
  let fr := pasteFindRun runs splitPoint
  match runs.get? fr.1 with
  | some run =>
    let runSplitPoint : Int := splitPoint - (fr.2 : Int)
    if 0 < runSplitPoint ∧ runSplitPoint < (run.length : Int) then
      jsSplice runs fr.1 1
        [⟨runSplitPoint.toNat, run.style⟩, ⟨run.length - runSplitPoint.toNat, run.style⟩]
    else runs
  | none => runs

/-- `pasteText(position, clipboardData)` (earlier variant): no position
validation; dereferencing a missing paragraph is the `TypeError` case. -/
def pasteText (d : Document) (pos : Pos) (cb : ClipboardData) : Except DocErr Document :=
  match cb.paragraphs with
  | [] => .ok d
  | firstClip :: restClip =>
    match getParagraph? d pos.paragraphIndex with
    | none => .error .typeError
    | some paragraph =>
      let beforeText := jsSliceList paragraph.text 0 (some pos.offset)
      let afterText := jsSliceList paragraph.text pos.offset none
      if restClip = [] then
        let f := fun (p : Paragraph) =>
          { p with
            text := beforeText ++ firstClip.text ++ afterText,
            runs := insertRunsAtOffsetRuns p.runs pos.offset firstClip.runs }
        .ok { d with paragraphs := modifyIdx d.paragraphs pos.paragraphIndex.toNat f }
      else
        let f := fun (p : Paragraph) =>
          { p with
            text := beforeText ++ firstClip.text,
            runs := insertRunsAtOffsetRuns
              (updateRunsForSplitRuns p.runs pos.offset) pos.offset firstClip.runs }
        let d1 := { d with paragraphs := modifyIdx d.paragraphs pos.paragraphIndex.toNat f }
        let middles := restClip.dropLast.map (fun c => Paragraph.mk c.text c.runs 0)
        let lastClip := (cb.paragraphs.getLast?).getD firstClip
        let lastPara : Paragraph := ⟨lastClip.text ++ afterText, lastClip.runs, 0⟩
        let finalParas := jsSplice d1.paragraphs (pos.paragraphIndex.toNat + 1) 0
          (middles ++ [lastPara])
        .ok { d1 with paragraphs := finalParas }

/-! ## Concrete inputs for the settled claims -/

/-- `{fontSize:16}` under an arbitrary key encoding. -/
def styleSixteen : Style := [(1, 16)]

/-- `{fontSize:20}`, distinct from `styleSixteen`. -/
def styleTwenty : Style := [(1, 20)]

/-- The code units of `"First paragraph"`. -/
def firstParagraphText : List Nat :=
  [70, 105, 114, 115, 116, 32, 112, 97, 114, 97, 103, 114, 97, 112, 104]

/-- Adjacent runs with structurally distinct styles everywhere. -/
def stylesSeparated (runs : List Run) : Prop :=
  List.Chain' (fun a b => a.style ≠ b.style) runs

instance (runs : List Run) : Decidable (stylesSeparated runs) :=
  inferInstanceAs (Decidable (List.Chain' _ runs))

/-- C1.  The run-length invariant fails after a valid `deleteText`: on a
ten-grapheme paragraph holding two five-grapheme runs, deleting the grapheme
range `[4, 6)` (which crosses the run boundary) leaves a single run of length
3 while the remaining text has 8 grapheme clusters — the source's own
`updateRunLengths` mismatch warning fires on this state.  The faulty
`remainingLength` arithmetic of `updateRunsAfterDeletion` is the cause. -/
theorem c1_deleteText_breaks_run_invariant :
    deleteText segmentUnits
      ⟨[⟨[97, 97, 97, 97, 97, 98, 98, 98, 98, 98],
        [⟨5, styleSixteen⟩, ⟨5, styleTwenty⟩], 0⟩]⟩
      ⟨0, 4⟩ ⟨0, 6⟩
    = Except.ok ⟨[⟨[97, 97, 97, 97, 98, 98, 98, 98], [⟨3, styleSixteen⟩], 0⟩]⟩ ∧
    runTotal [⟨3, styleSixteen⟩] = 3 ∧
    getGraphemeCount segmentUnits [97, 97, 97, 97, 98, 98, 98, 98] = 8 :=
  ⟨rfl, rfl, rfl⟩

/-- C2 counterexample.  `pasteText` performs no position validation: pasting
at offset 100 of a three-grapheme paragraph — an offset far outside
`[0, graphemeCount]` — succeeds and mutates the document instead of failing
with `PositionOutOfRange`. -/
theorem c2_pasteText_skips_validation :
    pasteText ⟨[⟨[97, 98, 99], [⟨3, styleSixteen⟩], 0⟩]⟩ ⟨0, 100⟩
      ⟨[⟨[120], [⟨1, styleSixteen⟩]⟩]⟩
    = Except.ok ⟨[⟨[97, 98, 99, 120], [⟨4, styleSixteen⟩], 0⟩]⟩ ∧
    getGraphemeCount segmentUnits [97, 98, 99] = 3 :=
  ⟨rfl, rfl⟩

/-- C4 counterexample.  On the paragraph `"a b"`, copying the range `[1, 2)`
(the space), deleting it and pasting the clipboard back at the start of the
range yields `"ab"`, not the original `"a b"`: the round-trip loses the
trimmed whitespace. -/
theorem c4_roundtrip_loses_whitespace :
    (copyText segmentUnits ⟨[⟨[97, 32, 98], [⟨3, styleSixteen⟩], 0⟩]⟩ ⟨0, 1⟩ ⟨0, 2⟩
      = Except.ok ⟨[⟨[], [⟨1, styleSixteen⟩]⟩]⟩) ∧
    (Except.bind
        (deleteText segmentUnits ⟨[⟨[97, 32, 98], [⟨3, styleSixteen⟩], 0⟩]⟩ ⟨0, 1⟩ ⟨0, 2⟩)
        (fun d => pasteText d ⟨0, 1⟩ ⟨[⟨[], [⟨1, styleSixteen⟩]⟩]⟩)
      = Except.ok ⟨[⟨[97, 98], [⟨3, styleSixteen⟩], 0⟩]⟩) ∧
    [97, 98] ≠ [97, 32, 98] :=
  ⟨rfl, rfl, by decide⟩

/-- C5 counterexample.  Inserting `" end"` at `offset = graphemeCount` of
`"First paragraph"` with the very style of its single run appends a second
run `⟨4, …⟩` with the same style: two adjacent, structurally equal runs
survive the mutation (matching the repository's own test, which expects two
runs here). -/
theorem c5_insertText_leaves_adjacent_equal_runs :
    insertText segmentUnits id ⟨[⟨firstParagraphText, [⟨15, styleSixteen⟩], 0⟩]⟩
      ⟨0, 15⟩ [32, 101, 110, 100] styleSixteen
    = Except.ok ⟨[⟨firstParagraphText ++ [32, 101, 110, 100],
        [⟨15, styleSixteen⟩, ⟨4, styleSixteen⟩], 0⟩]⟩ ∧
    ¬ stylesSeparated [⟨15, styleSixteen⟩, ⟨4, styleSixteen⟩] :=
  ⟨rfl, fun h => (List.chain'_cons.mp h).1 rfl⟩

/-- C8.  Inserting the two-code-unit emoji `U+1F3A8` (surrogate pair
`D83C DFA8`) at grapheme offset 5 of `"First paragraph"` with a distinct
style splits the single run three ways into lengths 5, 1 and 10: the emoji
counts as one grapheme cluster. -/
theorem c8_emoji_insert_three_way_split :
    insertText segmentUnits id ⟨[⟨firstParagraphText, [⟨15, styleSixteen⟩], 0⟩]⟩
      ⟨0, 5⟩ [0xD83C, 0xDFA8] styleTwenty
    = Except.ok ⟨[⟨[70, 105, 114, 115, 116, 0xD83C, 0xDFA8, 32, 112, 97, 114, 97,
          103, 114, 97, 112, 104],
        [⟨5, styleSixteen⟩, ⟨1, styleTwenty⟩, ⟨10, styleSixteen⟩], 0⟩]⟩ ∧
    getGraphemeCount segmentUnits [0xD83C, 0xDFA8] = 1 :=
  ⟨rfl, rfl⟩

/-- C9 counterexample.  `sliceTextByGraphemes` does not fail on a negative
start index: on the paragraph `"abc"`, start `-1` wraps around from the end
(ECMAScript `Array.prototype.slice`) and returns `"c"` — neither an
`InvalidRange` failure nor the clamp-to-`[0, count]` result `"abc"`. -/
theorem c9_slice_negative_wraps_not_error :
    sliceTextByGraphemes segmentUnits ⟨[⟨[97, 98, 99], [⟨3, styleSixteen⟩], 0⟩]⟩
      0 (-1) none = [99] ∧
    [99] ≠ [97, 98, 99] :=
  ⟨rfl, by decide⟩

/-! ## Validation characterization (C2) -/

/-- `this.document.paragraphs[i]` with the out-of-bounds default. -/
def paraAt (d : Document) (pi : Int) : Paragraph :=
  (getParagraph? d pi).getD ⟨[], [], 0⟩

/-- A position is valid: its paragraph index addresses a paragraph (is in
`[0, paragraphCount)`) and its offset lies in `[0, graphemeCount]` of that
paragraph's text. -/
def validPos (seg : List Nat → List (List Nat)) (d : Document) (p : Pos) : Prop :=
  (getParagraph? d p.paragraphIndex).isSome = true ∧ 0 ≤ p.offset ∧
    p.offset ≤ (getGraphemeCount seg (paraAt d p.paragraphIndex).text : Int)

instance (seg : List Nat → List (List Nat)) (d : Document) (p : Pos) :
    Decidable (validPos seg d p) :=
  inferInstanceAs (Decidable (_ ∧ _))

/-- The paragraph-index half of `validPos` is the expected interval. -/
theorem getParagraph?_isSome_iff (d : Document) (pi : Int) :
    (getParagraph? d pi).isSome = true ↔
      0 ≤ pi ∧ pi < (d.paragraphs.length : Int) := by
  unfold getParagraph?
  by_cases h0 : 0 ≤ pi
  · rw [if_pos h0]
    cases h : d.paragraphs.get? pi.toNat with
    | none =>
      have := List.get?_eq_none.mp h
      simp only [Option.isSome_none, Bool.false_eq_true, false_iff]
      omega
    | some q =>
      have := (List.get?_eq_some.mp h).1
      simp only [Option.isSome_some, true_iff]
      omega
  · rw [if_neg h0]
    simp only [Option.isSome_none, Bool.false_eq_true, false_iff]
    omega

/-- `validatePosition` succeeds exactly on valid positions, and otherwise
reports `PositionOutOfRange`. -/
theorem validatePosition_spec (seg : List Nat → List (List Nat)) (d : Document)
    (p : Pos) :
    (validPos seg d p ∧ validatePosition seg d p = .ok ()) ∨
    (¬ validPos seg d p ∧ validatePosition seg d p = .error .positionOutOfRange) := by
  unfold validatePosition validPos paraAt
  cases h : getParagraph? d p.paragraphIndex with
  | none => simp
  | some q =>
    dsimp only [Option.isSome_some, Option.getD_some]
    by_cases hc : p.offset < 0 ∨ p.offset > (getGraphemeCount seg q.text : Int)
    · rw [if_pos hc]
      refine Or.inr ⟨?_, rfl⟩
      rintro ⟨-, h1, h2⟩
      omega
    · rw [if_neg hc]
      refine Or.inl ⟨⟨rfl, ?_, ?_⟩, rfl⟩ <;> omega

theorem insertText_validation (seg : List Nat → List (List Nat))
    (nfc : List Nat → List Nat) (d : Document) (pos : Pos) (text : List Nat)
    (style : Style) :
    ((insertText seg nfc d pos text style).isOk = true ↔ validPos seg d pos) ∧
    (insertText seg nfc d pos text style = .error .positionOutOfRange ↔
      ¬ validPos seg d pos) := by
  unfold insertText
  rcases validatePosition_spec seg d pos with ⟨hv, heq⟩ | ⟨hv, heq⟩ <;> rw [heq]
  · constructor
    · dsimp only
      split_ifs <;> simp [hv, Except.isOk, Except.toBool]
    · dsimp only
      split_ifs <;> simp [hv]
  · simp [hv, Except.isOk, Except.toBool]

theorem deleteText_validation (seg : List Nat → List (List Nat)) (d : Document)
    (s e : Pos) :
    ((deleteText seg d s e).isOk = true ↔
      validPos seg d s ∧ validPos seg d e ∧ ¬ startAfterEnd s e) ∧
    (deleteText seg d s e = .error .positionOutOfRange ↔
      ¬ validPos seg d s ∨ ¬ validPos seg d e) ∧
    (deleteText seg d s e = .error .invalidRange ↔
      validPos seg d s ∧ validPos seg d e ∧ startAfterEnd s e) := by
  unfold deleteText
  rcases validatePosition_spec seg d s with ⟨hs, heq⟩ | ⟨hs, heq⟩ <;> rw [heq]
  · rcases validatePosition_spec seg d e with ⟨he, heq2⟩ | ⟨he, heq2⟩ <;> rw [heq2]
    · by_cases hr : startAfterEnd s e
      · rw [if_pos hr]
        simp [hs, he, hr, Except.isOk, Except.toBool]
      · rw [if_neg hr]
        dsimp only
        split_ifs <;> simp [hs, he, hr, Except.isOk, Except.toBool]
    · simp [hs, he, Except.isOk, Except.toBool]
  · simp [hs, Except.isOk, Except.toBool]

theorem applyStyle_validation (seg : List Nat → List (List Nat)) (d : Document)
    (s e : Pos) (patch : Style) :
    ((applyStyle seg d s e patch).isOk = true ↔
      validPos seg d s ∧ validPos seg d e ∧ ¬ startAfterEnd s e) ∧
    (applyStyle seg d s e patch = .error .positionOutOfRange ↔
      ¬ validPos seg d s ∨ ¬ validPos seg d e) ∧
    (applyStyle seg d s e patch = .error .invalidRange ↔
      validPos seg d s ∧ validPos seg d e ∧ startAfterEnd s e) := by
  unfold applyStyle
  rcases validatePosition_spec seg d s with ⟨hs, heq⟩ | ⟨hs, heq⟩ <;> rw [heq]
  · rcases validatePosition_spec seg d e with ⟨he, heq2⟩ | ⟨he, heq2⟩ <;> rw [heq2]
    · by_cases hr : startAfterEnd s e
      · rw [if_pos hr]
        simp [hs, he, hr, Except.isOk, Except.toBool]
      · rw [if_neg hr]
        dsimp only
        split_ifs <;> simp [hs, he, hr, Except.isOk, Except.toBool]
    · simp [hs, he, Except.isOk, Except.toBool]
  · simp [hs, Except.isOk, Except.toBool]

theorem copyText_validation (seg : List Nat → List (List Nat)) (d : Document)
    (s e : Pos) :
    ((copyText seg d s e).isOk = true ↔
      validPos seg d s ∧ validPos seg d e ∧ ¬ startAfterEnd s e) ∧
    (copyText seg d s e = .error .positionOutOfRange ↔
      ¬ validPos seg d s ∨ ¬ validPos seg d e) ∧
    (copyText seg d s e = .error .invalidRange ↔
      validPos seg d s ∧ validPos seg d e ∧ startAfterEnd s e) := by
  unfold copyText
  rcases validatePosition_spec seg d s with ⟨hs, heq⟩ | ⟨hs, heq⟩ <;> rw [heq]
  · rcases validatePosition_spec seg d e with ⟨he, heq2⟩ | ⟨he, heq2⟩ <;> rw [heq2]
    · by_cases hr : startAfterEnd s e
      · rw [if_pos hr]
        simp [hs, he, hr, Except.isOk, Except.toBool]
      · rw [if_neg hr]
        dsimp only
        split_ifs <;> simp [hs, he, hr, Except.isOk, Except.toBool]
    · simp [hs, he, Except.isOk, Except.toBool]
  · simp [hs, Except.isOk, Except.toBool]

/-- C2 (amended).  The four validating operations succeed exactly on valid
arguments and report the claimed error kinds: `PositionOutOfRange` exactly
when some position argument has a paragraph index outside
`[0, paragraphCount)` or an offset outside `[0, graphemeCount]`, and
`InvalidRange` exactly when both positions are valid but start is after end
in paragraph-then-offset order.  Each returns its error strictly before any
new document state is constructed (the validate-then-mutate order of the
source), so failures are atomic.  `pasteText` is excluded: it performs no
validation (see its counterexample). -/
theorem c2_validating_ops_fail_iff_invalid (seg : List Nat → List (List Nat))
    (nfc : List Nat → List Nat) (d : Document) (pos s e : Pos) (text : List Nat)
    (style patch : Style) :
    (((insertText seg nfc d pos text style).isOk = true ↔ validPos seg d pos) ∧
      (insertText seg nfc d pos text style = .error .positionOutOfRange ↔
        ¬ validPos seg d pos)) ∧
    (((deleteText seg d s e).isOk = true ↔
        validPos seg d s ∧ validPos seg d e ∧ ¬ startAfterEnd s e) ∧
      (deleteText seg d s e = .error .positionOutOfRange ↔
        ¬ validPos seg d s ∨ ¬ validPos seg d e) ∧
      (deleteText seg d s e = .error .invalidRange ↔
        validPos seg d s ∧ validPos seg d e ∧ startAfterEnd s e)) ∧
    (((applyStyle seg d s e patch).isOk = true ↔
        validPos seg d s ∧ validPos seg d e ∧ ¬ startAfterEnd s e) ∧
      (applyStyle seg d s e patch = .error .positionOutOfRange ↔
        ¬ validPos seg d s ∨ ¬ validPos seg d e) ∧
      (applyStyle seg d s e patch = .error .invalidRange ↔
        validPos seg d s ∧ validPos seg d e ∧ startAfterEnd s e)) ∧
    (((copyText seg d s e).isOk = true ↔
        validPos seg d s ∧ validPos seg d e ∧ ¬ startAfterEnd s e) ∧
      (copyText seg d s e = .error .positionOutOfRange ↔
        ¬ validPos seg d s ∨ ¬ validPos seg d e) ∧
      (copyText seg d s e = .error .invalidRange ↔
        validPos seg d s ∧ validPos seg d e ∧ startAfterEnd s e)) :=
  ⟨insertText_validation seg nfc d pos text style,
   deleteText_validation seg d s e,
   applyStyle_validation seg d s e patch,
   copyText_validation seg d s e⟩

/-! ## findRunAtOffset specification (C6) -/

/-- Cumulative grapheme offset of run `i`: the sum of the lengths of the
first `i` runs. -/
def cumulative : List Run → Nat → Nat
  | _, 0 => 0
  | [], _ + 1 => 0
  | r :: rs, n + 1 => r.length + cumulative rs n

theorem cumulative_le_total (runs : List Run) (n : Nat) :
    cumulative runs n ≤ runTotal runs := by
  induction runs generalizing n with
  | nil => cases n <;> simp [cumulative, runTotal]
  | cons r rs ih =>
    cases n with
    | zero => simp [cumulative]
    | succ m =>
      have := ih m
      simp only [cumulative, runTotal, List.foldr] at *
      omega

theorem cumulative_mono (runs : List Run) {a b : Nat} (h : a ≤ b) :
    cumulative runs a ≤ cumulative runs b := by
  induction runs generalizing a b with
  | nil => cases a <;> cases b <;> simp [cumulative]
  | cons r rs ih =>
    cases a with
    | zero => simp [cumulative]
    | succ a' =>
      cases b with
      | zero => omega
      | succ b' =>
        have := ih (Nat.succ_le_succ_iff.mp h)
        simp only [cumulative]
        omega

theorem findRunAtOffsetAux_past_end (offset : Nat) (runs : List Run) (i cum : Nat)
    (h : cum + runTotal runs ≤ offset) :
    findRunAtOffsetAux offset runs i cum = (-1, 0) := by
  induction runs generalizing i cum with
  | nil => rfl
  | cons r rs ih =>
    simp only [runTotal, List.foldr] at h
    have hle : ¬ (cum + r.length > offset) := by omega
    simp only [findRunAtOffsetAux, if_neg hle]
    exact ih (i + 1) (cum + r.length) (by simp only [runTotal]; omega)

theorem findRunAtOffsetAux_found (offset : Nat) (runs : List Run) (i cum : Nat)
    (h : offset < cum + runTotal runs) (hcum : cum ≤ offset) :
    ∃ k : Nat, findRunAtOffsetAux offset runs i cum =
        (((i + k : Nat) : Int), offset - (cum + cumulative runs k)) ∧
      cum + cumulative runs k ≤ offset ∧
      offset < cum + cumulative runs (k + 1) := by
  induction runs generalizing i cum with
  | nil => simp only [runTotal, List.foldr] at h; omega
  | cons r rs ih =>
    by_cases hhit : cum + r.length > offset
    · refine ⟨0, ?_, ?_, ?_⟩
      · simp [findRunAtOffsetAux, if_pos hhit, cumulative]
      · simpa [cumulative] using hcum
      · simpa [cumulative] using hhit
    · simp only [findRunAtOffsetAux, if_neg hhit]
      have h' : offset < (cum + r.length) + runTotal rs := by
        simp only [runTotal, List.foldr] at h ⊢
        omega
      obtain ⟨k, hk, hk1, hk2⟩ := ih (i + 1) (cum + r.length) h' (by omega)
      refine ⟨k + 1, ?_, ?_, ?_⟩
      · rw [hk]
        simp only [cumulative]
        congr 1
        · congr 1
          omega
        · congr 1
          omega
      · simp only [cumulative]; omega
      · simp only [cumulative]; omega

/-- C6.  For a paragraph whose run lengths sum to the grapheme count of its
text and an offset in `[0, graphemeCount]`: at `offset = graphemeCount` the
result is the sentinel `(-1, 0)`; below it, the result is the unique run `i`
with `cumulative i ≤ offset < cumulative (i+1)`, paired with
`offset - cumulative i`. -/
theorem c6_findRunAtOffset_spec (seg : List Nat → List (List Nat)) (p : Paragraph)
    (offset : Nat) (hsum : runTotal p.runs = getGraphemeCount seg p.text)
    (hoff : offset ≤ getGraphemeCount seg p.text) :
    (offset = getGraphemeCount seg p.text → findRunAtOffset p offset = (-1, 0)) ∧
    (offset < getGraphemeCount seg p.text →
      ∃ i : Nat, findRunAtOffset p offset =
          ((i : Int), offset - cumulative p.runs i) ∧
        cumulative p.runs i ≤ offset ∧ offset < cumulative p.runs (i + 1) ∧
        ∀ j : Nat, cumulative p.runs j ≤ offset →
          offset < cumulative p.runs (j + 1) → j = i) := by
  constructor
  · intro hend
    exact findRunAtOffsetAux_past_end offset p.runs 0 0 (by omega)
  · intro hlt
    obtain ⟨k, hk, hk1, hk2⟩ :=
      findRunAtOffsetAux_found offset p.runs 0 0 (by omega) (Nat.zero_le _)
    refine ⟨k, by simpa [findRunAtOffset, findRunAtOffsetRuns] using hk,
      by omega, by omega, ?_⟩
    intro j hj1 hj2
    by_contra hne
    rcases Nat.lt_or_ge j k with hlt' | hge
    · have : j + 1 ≤ k := hlt'
      have := cumulative_mono p.runs this
      omega
    · have : k + 1 ≤ j := by omega
      have := cumulative_mono p.runs this
      omega

/-- Witness for C6: on a two-run paragraph summing to its four grapheme
clusters, offset 4 hits the sentinel and offset 3 lands in run 1 at
in-run offset 1. -/
theorem c6_findRunAtOffset_spec_witness :
    findRunAtOffset ⟨[97, 98, 99, 100], [⟨2, styleSixteen⟩, ⟨2, styleTwenty⟩], 0⟩ 4
        = (-1, 0) ∧
    findRunAtOffset ⟨[97, 98, 99, 100], [⟨2, styleSixteen⟩, ⟨2, styleTwenty⟩], 0⟩ 3
        = (1, 1) := by
  constructor
  · exact (c6_findRunAtOffset_spec segmentUnits
      ⟨[97, 98, 99, 100], [⟨2, styleSixteen⟩, ⟨2, styleTwenty⟩], 0⟩ 4
      (by decide) (by decide)).1 (by decide)
  · obtain ⟨i, hi, h1, h2, -⟩ := (c6_findRunAtOffset_spec segmentUnits
      ⟨[97, 98, 99, 100], [⟨2, styleSixteen⟩, ⟨2, styleTwenty⟩], 0⟩ 3
      (by decide) (by decide)).2 (by decide)
    dsimp only at hi h1 h2
    have hc1 : cumulative [(⟨2, styleSixteen⟩ : Run), ⟨2, styleTwenty⟩] 1 = 2 := by
      decide
    have hc2 : cumulative [(⟨2, styleSixteen⟩ : Run), ⟨2, styleTwenty⟩] 2 = 4 := by
      decide
    have hi1 : i = 1 := by
      rcases Nat.lt_or_ge i 1 with h | h
      · have h0 : i = 0 := by omega
        rw [h0, Nat.zero_add] at h2
        omega
      · rcases Nat.lt_or_ge i 2 with h' | h'
        · omega
        · have hm := cumulative_mono
            [(⟨2, styleSixteen⟩ : Run), ⟨2, styleTwenty⟩] h'
          omega
    rw [hi1] at hi
    simpa using hi

/-! ## Frame lemmas for paragraph-wise updates -/

theorem modifyIdx_length (l : List α) (i : Nat) (f : α → α) :
    (modifyIdx l i f).length = l.length := by
  induction l generalizing i with
  | nil => rfl
  | cons a as ih =>
    cases i with
    | zero => rfl
    | succ n => simpa [modifyIdx] using ih n

theorem modifyIdx_get? (l : List α) (i : Nat) (f : α → α) (j : Nat) :
    (modifyIdx l i f).get? j =
      if j = i then (l.get? j).map f else l.get? j := by
  induction l generalizing i j with
  | nil => simp [modifyIdx]
  | cons a as ih =>
    cases i with
    | zero =>
      cases j with
      | zero => simp [modifyIdx]
      | succ m => simp [modifyIdx]
    | succ n =>
      cases j with
      | zero => simp [modifyIdx]
      | succ m =>
        simp only [modifyIdx, List.get?]
        rw [ih n m]
        by_cases hj : m = n
        · simp [hj]
        · simp [hj, fun h => hj (Nat.succ_injective h)]

theorem foldl_modify_length (L : List Nat) (G : Nat → Paragraph → Paragraph)
    (d : Document) :
    (L.foldl (fun dd i =>
        { dd with paragraphs := modifyIdx dd.paragraphs i (G i) }) d).paragraphs.length
      = d.paragraphs.length := by
  induction L generalizing d with
  | nil => rfl
  | cons i L ih =>
    simp only [List.foldl]
    rw [ih]
    exact modifyIdx_length d.paragraphs i (G i)

theorem foldl_modify_get?_of_not_mem (L : List Nat) (G : Nat → Paragraph → Paragraph)
    (d : Document) (j : Nat) (hj : j ∉ L) :
    (L.foldl (fun dd i =>
        { dd with paragraphs := modifyIdx dd.paragraphs i (G i) }) d).paragraphs.get? j
      = d.paragraphs.get? j := by
  induction L generalizing d with
  | nil => rfl
  | cons i L ih =>
    simp only [List.foldl]
    rw [ih _ (fun h => hj (List.mem_cons_of_mem _ h))]
    rw [modifyIdx_get?]
    rw [if_neg (fun h => hj (by simp [h]))]

theorem foldl_modify_get?_map (L : List Nat) (G : Nat → Paragraph → Paragraph)
    (F : Paragraph → β) (hF : ∀ i p, F (G i p) = F p) (d : Document) (j : Nat) :
    ((L.foldl (fun dd i =>
        { dd with paragraphs := modifyIdx dd.paragraphs i (G i) }) d).paragraphs.get? j).map F
      = (d.paragraphs.get? j).map F := by
  induction L generalizing d with
  | nil => rfl
  | cons i L ih =>
    simp only [List.foldl]
    rw [ih]
    rw [modifyIdx_get?]
    by_cases h : j = i
    · rw [if_pos h]
      cases d.paragraphs.get? j <;> simp [hF]
    · rw [if_neg h]

theorem modifyIdx_get?_map (l : List α) (i : Nat) (f : α → α) (F : α → β)
    (hF : ∀ p, F (f p) = F p) (j : Nat) :
    ((modifyIdx l i f).get? j).map F = (l.get? j).map F := by
  rw [modifyIdx_get?]
  by_cases h : j = i
  · rw [if_pos h]
    cases l.get? j <;> simp [hF]
  · rw [if_neg h]

/-- C10.  `applyStyle` changes only run ledgers of addressed paragraphs: the
paragraph count, every paragraph's text and layout hint are unchanged, and
every paragraph outside `[start.paragraphIndex, end.paragraphIndex]` is
unchanged entirely. -/
theorem c10_applyStyle_frame (seg : List Nat → List (List Nat)) (d : Document)
    (s e : Pos) (patch : Style) (d' : Document)
    (h : applyStyle seg d s e patch = .ok d') :
    d'.paragraphs.length = d.paragraphs.length ∧
    (∀ j : Nat, (d'.paragraphs.get? j).map Paragraph.text =
      (d.paragraphs.get? j).map Paragraph.text) ∧
    (∀ j : Nat, (d'.paragraphs.get? j).map Paragraph.yOffset =
      (d.paragraphs.get? j).map Paragraph.yOffset) ∧
    (∀ j : Nat, ((j : Int) < s.paragraphIndex ∨ e.paragraphIndex < (j : Int)) →
      d'.paragraphs.get? j = d.paragraphs.get? j) := by
  unfold applyStyle at h
  rcases validatePosition_spec seg d s with ⟨hs, heq⟩ | ⟨hs, heq⟩
  case inr => rw [heq] at h; cases h
  rw [heq] at h
  rcases validatePosition_spec seg d e with ⟨he, heq2⟩ | ⟨he, heq2⟩
  case inl.intro.inr.intro => rw [heq2] at h; cases h
  rw [heq2] at h
  by_cases hr : startAfterEnd s e
  · rw [if_pos hr] at h; cases h
  rw [if_neg hr] at h
  have hs0 : 0 ≤ s.paragraphIndex := ((getParagraph?_isSome_iff d _).mp hs.1).1
  have he0 : 0 ≤ e.paragraphIndex := ((getParagraph?_isSome_iff d _).mp he.1).1
  unfold startAfterEnd at hr
  push_neg at hr
  by_cases hp : s.paragraphIndex = e.paragraphIndex
  · rw [if_pos hp] at h
    cases h
    refine ⟨modifyIdx_length _ _ _, ?_, ?_, ?_⟩
    · intro j
      exact modifyIdx_get?_map d.paragraphs s.paragraphIndex.toNat
        (applyStyleToParagraph s.offset.toNat e.offset.toNat patch)
        Paragraph.text (fun p => rfl) j
    · intro j
      exact modifyIdx_get?_map d.paragraphs s.paragraphIndex.toNat
        (applyStyleToParagraph s.offset.toNat e.offset.toNat patch)
        Paragraph.yOffset (fun p => rfl) j
    · intro j hj
      show (modifyIdx d.paragraphs s.paragraphIndex.toNat _).get? j = _
      rw [modifyIdx_get?, if_neg]
      omega
  · rw [if_neg hp] at h
    cases h
    unfold applyStyleAcrossParagraphs
    dsimp only
    have hlt : s.paragraphIndex < e.paragraphIndex := by
      rcases hr.1.lt_or_eq with h' | h'
      · exact h'
      · exact absurd h' hp
    refine ⟨?_, ?_, ?_, ?_⟩
    · rw [modifyIdx_length, foldl_modify_length, modifyIdx_length]
    · intro j
      rw [modifyIdx_get?_map _ e.paragraphIndex.toNat
          (fun p => applyStyleToParagraph 0 e.offset.toNat patch p)
          Paragraph.text (fun p => rfl) j,
        foldl_modify_get?_map _
          (fun _ p => applyStyleToParagraph 0 (getGraphemeCount seg p.text) patch p)
          Paragraph.text (fun i p => rfl),
        modifyIdx_get?_map _ s.paragraphIndex.toNat
          (fun p => applyStyleToParagraph s.offset.toNat (getGraphemeCount seg p.text) patch p)
          Paragraph.text (fun p => rfl) j]
    · intro j
      rw [modifyIdx_get?_map _ e.paragraphIndex.toNat
          (fun p => applyStyleToParagraph 0 e.offset.toNat patch p)
          Paragraph.yOffset (fun p => rfl) j,
        foldl_modify_get?_map _
          (fun _ p => applyStyleToParagraph 0 (getGraphemeCount seg p.text) patch p)
          Paragraph.yOffset (fun i p => rfl),
        modifyIdx_get?_map _ s.paragraphIndex.toNat
          (fun p => applyStyleToParagraph s.offset.toNat (getGraphemeCount seg p.text) patch p)
          Paragraph.yOffset (fun p => rfl) j]
    · intro j hj
      rw [modifyIdx_get?, if_neg (by omega)]
      rw [foldl_modify_get?_of_not_mem]
      · rw [modifyIdx_get?, if_neg (by omega)]
      · intro hmem
        have := List.mem_range'_1.mp hmem
        omega

/-- Witness for C10 on a concrete two-paragraph document. -/
theorem c10_applyStyle_frame_witness :
    ∃ d', applyStyle segmentUnits
        ⟨[⟨[97, 98], [⟨2, styleSixteen⟩], 0⟩, ⟨[99, 100], [⟨2, styleSixteen⟩], 7⟩]⟩
        ⟨0, 1⟩ ⟨1, 1⟩ styleTwenty = .ok d' ∧
      d'.paragraphs.length = 2 ∧
      (d'.paragraphs.get? 0).map Paragraph.text = some [97, 98] ∧
      (d'.paragraphs.get? 1).map Paragraph.yOffset = some 7 := by
  refine ⟨applyStyleAcrossParagraphs segmentUnits
    ⟨[⟨[97, 98], [⟨2, styleSixteen⟩], 0⟩, ⟨[99, 100], [⟨2, styleSixteen⟩], 7⟩]⟩
    0 1 1 1 styleTwenty, rfl, ?_, ?_, ?_⟩
  · have := c10_applyStyle_frame segmentUnits
      ⟨[⟨[97, 98], [⟨2, styleSixteen⟩], 0⟩, ⟨[99, 100], [⟨2, styleSixteen⟩], 7⟩]⟩
      ⟨0, 1⟩ ⟨1, 1⟩ styleTwenty _ rfl
    exact this.1
  · have := c10_applyStyle_frame segmentUnits
      ⟨[⟨[97, 98], [⟨2, styleSixteen⟩], 0⟩, ⟨[99, 100], [⟨2, styleSixteen⟩], 7⟩]⟩
      ⟨0, 1⟩ ⟨1, 1⟩ styleTwenty _ rfl
    exact (this.2.1 0).trans rfl
  · have := c10_applyStyle_frame segmentUnits
      ⟨[⟨[97, 98], [⟨2, styleSixteen⟩], 0⟩, ⟨[99, 100], [⟨2, styleSixteen⟩], 7⟩]⟩
      ⟨0, 1⟩ ⟨1, 1⟩ styleTwenty _ rfl
    exact (this.2.2.1 1).trans rfl

/-! ## Maximal merging (C5) -/

theorem mergeLoop_head?_style (acc : Run) (rest : List Run) :
    ∃ hd tl, mergeLoop acc rest = hd :: tl ∧ hd.style = acc.style := by
  induction rest generalizing acc with
  | nil => exact ⟨acc, [], rfl, rfl⟩
  | cons r rs ih =>
    by_cases hEq : areStylesEqual acc.style r.style
    · obtain ⟨hd, tl, h1, h2⟩ := ih {acc with length := acc.length + r.length}
      exact ⟨hd, tl, by simpa [mergeLoop, hEq] using h1, h2⟩
    · exact ⟨acc, mergeLoop r rs, by simp [mergeLoop, hEq], rfl⟩

theorem stylesSeparated_mergeLoop (acc : Run) (rest : List Run) :
    stylesSeparated (mergeLoop acc rest) := by
  induction rest generalizing acc with
  | nil => simp [mergeLoop, stylesSeparated]
  | cons r rs ih =>
    by_cases hEq : areStylesEqual acc.style r.style
    · simpa [mergeLoop, hEq] using ih {acc with length := acc.length + r.length}
    · simp only [mergeLoop, hEq, Bool.false_eq_true, if_false]
      obtain ⟨hd, tl, h1, h2⟩ := mergeLoop_head?_style r rs
      unfold stylesSeparated
      rw [h1, List.chain'_cons]
      refine ⟨?_, ?_⟩
      · rw [h2]
        intro hcontra
        exact absurd (by simp [areStylesEqual, hcontra]) hEq
      · rw [← h1]
        exact ih r

/-- `mergeAdjacentRuns` output never has two adjacent runs with equal
styles. -/
theorem stylesSeparated_mergeAdjacentRuns (runs : List Run) :
    stylesSeparated (mergeAdjacentRuns runs) := by
  cases runs with
  | nil => simp [mergeAdjacentRuns, stylesSeparated]
  | cons r rs => exact stylesSeparated_mergeLoop r rs

theorem foldl_modify_get?_of_mem (L : List Nat) (G : Nat → Paragraph → Paragraph)
    (d : Document) (j : Nat) (hj : j ∈ L) (hnd : L.Nodup) :
    (L.foldl (fun dd i =>
        { dd with paragraphs := modifyIdx dd.paragraphs i (G i) }) d).paragraphs.get? j
      = (d.paragraphs.get? j).map (G j) := by
  induction L generalizing d with
  | nil => cases hj
  | cons i L ih =>
    simp only [List.foldl]
    by_cases hji : j = i
    · subst hji
      have hnot : j ∉ L := (List.nodup_cons.mp hnd).1
      rw [foldl_modify_get?_of_not_mem L G _ j hnot]
      rw [modifyIdx_get?, if_pos rfl]
    · have hmem : j ∈ L := by
        cases hj with
        | head => exact absurd rfl hji
        | tail _ h => exact h
      rw [ih _ hmem (List.nodup_cons.mp hnd).2]
      rw [modifyIdx_get?, if_neg hji]

/-- C5 (amended).  After `applyStyle` completes, every addressed paragraph
(index between the start and end paragraph indices) has no two adjacent runs
with structurally equal styles: each addressed paragraph's ledger is rebuilt
and finished with `mergeAdjacentRuns`.  (`insertText` has no such property:
see the counterexample, where a same-style append at end of paragraph leaves
two adjacent equal-style runs.) -/
theorem c5_applyStyle_merges_maximally (seg : List Nat → List (List Nat))
    (d : Document) (s e : Pos) (patch : Style) (d' : Document)
    (h : applyStyle seg d s e patch = .ok d') (j : Nat)
    (hj1 : s.paragraphIndex ≤ (j : Int)) (hj2 : (j : Int) ≤ e.paragraphIndex)
    (p : Paragraph) (hp : d'.paragraphs.get? j = some p) :
    stylesSeparated p.runs := by
  unfold applyStyle at h
  rcases validatePosition_spec seg d s with ⟨hs, heq⟩ | ⟨hs, heq⟩
  case inr => rw [heq] at h; cases h
  rw [heq] at h
  rcases validatePosition_spec seg d e with ⟨he, heq2⟩ | ⟨he, heq2⟩
  case inl.intro.inr.intro => rw [heq2] at h; cases h
  rw [heq2] at h
  by_cases hr : startAfterEnd s e
  · rw [if_pos hr] at h; cases h
  rw [if_neg hr] at h
  have hs0 : 0 ≤ s.paragraphIndex := ((getParagraph?_isSome_iff d _).mp hs.1).1
  have he0 : 0 ≤ e.paragraphIndex := ((getParagraph?_isSome_iff d _).mp he.1).1
  by_cases hpi : s.paragraphIndex = e.paragraphIndex
  · rw [if_pos hpi] at h
    cases h
    rw [modifyIdx_get?] at hp
    have hj : j = s.paragraphIndex.toNat := by omega
    rw [if_pos hj] at hp
    cases hq : d.paragraphs.get? j with
    | none => rw [hq] at hp; cases hp
    | some q =>
      rw [hq] at hp
      simp only [Option.map_some'] at hp
      cases hp
      exact stylesSeparated_mergeAdjacentRuns _
  · rw [if_neg hpi] at h
    cases h
    unfold applyStyleAcrossParagraphs at hp
    dsimp only at hp
    rw [modifyIdx_get?] at hp
    by_cases hje : j = e.paragraphIndex.toNat
    · rw [if_pos hje] at hp
      cases hq : (List.foldl _ _ _ : Document).paragraphs.get? j with
      | none => rw [hq] at hp; cases hp
      | some q =>
        rw [hq] at hp
        simp only [Option.map_some'] at hp
        cases hp
        exact stylesSeparated_mergeAdjacentRuns _
    · rw [if_neg hje] at hp
      by_cases hjs : j = s.paragraphIndex.toNat
      · rw [foldl_modify_get?_of_not_mem _ _ _ _ ?_] at hp
        · rw [modifyIdx_get?, if_pos hjs] at hp
          cases hq : d.paragraphs.get? j with
          | none => rw [hq] at hp; cases hp
          | some q =>
            rw [hq] at hp
            simp only [Option.map_some'] at hp
            cases hp
            exact stylesSeparated_mergeAdjacentRuns _
        · intro hmem
          have := List.mem_range'_1.mp hmem
          omega
      · have hmem : j ∈ List.range' (s.paragraphIndex.toNat + 1)
            (e.paragraphIndex.toNat - (s.paragraphIndex.toNat + 1)) := by
          rw [List.mem_range'_1]
          omega
        rw [foldl_modify_get?_of_mem _ _ _ _ hmem (List.nodup_range' _ _)] at hp
        rw [modifyIdx_get?, if_neg hjs] at hp
        cases hq : d.paragraphs.get? j with
        | none => rw [hq] at hp; cases hp
        | some q =>
          rw [hq] at hp
          simp only [Option.map_some'] at hp
          cases hp
          exact stylesSeparated_mergeAdjacentRuns _

/-- Witness for the amended C5 at a concrete document and range. -/
theorem c5_applyStyle_merges_maximally_witness :
    stylesSeparated
      ((applyStyleToParagraph 0 1 styleTwenty
        ⟨[97, 98], [⟨2, styleSixteen⟩], 0⟩).runs) := by
  refine c5_applyStyle_merges_maximally segmentUnits
    ⟨[⟨[97, 98], [⟨2, styleSixteen⟩], 0⟩]⟩ ⟨0, 0⟩ ⟨0, 1⟩ styleTwenty
    _ rfl 0 (by decide) (by decide) _ ?_
  rfl

/-! ## Object-spread idempotence (C7) -/

/-- JavaScript objects have no duplicate keys. -/
def nodupKeys (s : Style) : Prop := s.Pairwise (fun p q => p.1 ≠ q.1)

instance (s : Style) : Decidable (nodupKeys s) :=
  inferInstanceAs (Decidable (List.Pairwise _ s))

theorem find?_key_eq_self (s : Style) (hnd : nodupKeys s) (p : Nat × Nat)
    (hp : p ∈ s) : s.find? (fun q => q.1 == p.1) = some p := by
  induction s with
  | nil => cases hp
  | cons a t ih =>
    rcases List.mem_cons.mp hp with rfl | hmem
    · simp [List.find?_cons]
    · have hne : a.1 ≠ p.1 := (List.pairwise_cons.mp hnd).1 p hmem
      have hb : (a.1 == p.1) = false := by simpa using hne
      rw [List.find?_cons, hb]
      exact ih (List.pairwise_cons.mp hnd).2 hmem

theorem spreadEntry_key (s : Style) (kv : Nat × Nat) :
    (spreadEntry s kv).1 = kv.1 := by
  unfold spreadEntry
  cases s.find? (fun p => p.1 == kv.1) <;> rfl

theorem spreadEntry_idem (s : Style) (kv : Nat × Nat) :
    spreadEntry s (spreadEntry s kv) = spreadEntry s kv := by
  cases h : s.find? (fun p => p.1 == kv.1) with
  | none =>
    have h1 : spreadEntry s kv = kv := by simp [spreadEntry, h]
    rw [h1]
    exact h1
  | some q =>
    have h1 : spreadEntry s kv = (kv.1, q.2) := by simp [spreadEntry, h]
    rw [h1]
    simp [spreadEntry, h]

/-- The spread `{...base, ...patch}` is idempotent in its patch:
`{...{...r, ...s}, ...s} = {...r, ...s}` for duplicate-free `s`. -/
theorem spreadStyle_idem (r s : Style) (hnd : nodupKeys s) :
    spreadStyle (spreadStyle r s) s = spreadStyle r s := by
  unfold spreadStyle
  rw [List.map_append]
  have hA : (r.map (spreadEntry s)).map (spreadEntry s) = r.map (spreadEntry s) := by
    rw [List.map_map]
    refine List.map_congr_left ?_
    intro kv _
    exact spreadEntry_idem s kv
  have hB : (s.filter (fun p => !(r.any (fun kv => kv.1 == p.1)))).map (spreadEntry s)
      = s.filter (fun p => !(r.any (fun kv => kv.1 == p.1))) := by
    have hid : (s.filter (fun p => !(r.any (fun kv => kv.1 == p.1)))).map (spreadEntry s)
        = (s.filter (fun p => !(r.any (fun kv => kv.1 == p.1)))).map id := by
      refine List.map_congr_left ?_
      intro p hp
      have hmem : p ∈ s := List.mem_of_mem_filter hp
      simp [spreadEntry, find?_key_eq_self s hnd p hmem]
    rw [hid, List.map_id]
  have hC : s.filter (fun p =>
      !((r.map (spreadEntry s) ++
          s.filter (fun q => !(r.any (fun kv => kv.1 == q.1)))).any
        (fun kv => kv.1 == p.1))) = [] := by
    rw [List.filter_eq_nil_iff]
    intro p hp
    simp only [Bool.not_eq_true', Bool.not_eq_false]
    rw [List.any_append]
    by_cases hr : r.any (fun kv => kv.1 == p.1)
    · refine Bool.or_eq_true_iff.mpr (Or.inl ?_)
      rw [List.any_map]
      rw [List.any_eq_true] at hr ⊢
      obtain ⟨kv, hkv, hkey⟩ := hr
      exact ⟨kv, hkv, by simpa [Function.comp, spreadEntry_key] using hkey⟩
    · refine Bool.or_eq_true_iff.mpr (Or.inr ?_)
      rw [List.any_eq_true]
      refine ⟨p, ?_, by simp⟩
      rw [List.mem_filter]
      exact ⟨hp, by simp [hr]⟩
  rw [hA, hB, hC, List.append_nil]

/-- A style the patch leaves unchanged. -/
def sStable (patch σ : Style) : Prop := spreadStyle σ patch = σ

/-- The rebuild loop's overlap test for a run of length `len` at absolute
grapheme position `cur` against the range `[a, b)`. -/
def overlaps (a b cur len : Nat) : Prop := ¬(cur + len ≤ a ∨ cur ≥ b)

/-- Every run of the list that overlaps `[a, b)` (cumulative positions
starting at `cur`) has a patch-stable style. -/
def rangeStable (a b : Nat) (patch : Style) : List Run → Nat → Prop
  | [], _ => True
  | r :: rs, cur =>
    (overlaps a b cur r.length → sStable patch r.style) ∧
      rangeStable a b patch rs (cur + r.length)

/-- Whenever two adjacent runs carry equal styles, that style is
patch-stable. -/
def seamsStable (patch : Style) (L : List Run) : Prop :=
  List.Chain' (fun x y => x.style = y.style → sStable patch x.style) L

/-- The block of runs the rebuild loop emits for one run. -/
def runParts (a b : Nat) (patch : Style) (r : Run) (cur : Nat) : List Run :=
  if cur + r.length ≤ a ∨ cur ≥ b then [r]
  else
    (if cur < a then [⟨a - cur, r.style⟩] else []) ++
    [⟨min (cur + r.length) b - max cur a, spreadStyle r.style patch⟩] ++
    (if cur + r.length > b then [⟨cur + r.length - b, r.style⟩] else [])

theorem applyRangeAux_cons (a b : Nat) (patch : Style) (r : Run) (rs : List Run)
    (cur : Nat) :
    applyRangeAux a b patch (r :: rs) cur =
      runParts a b patch r cur ++ applyRangeAux a b patch rs (cur + r.length) := by
  simp only [applyRangeAux, runParts]

theorem runParts_ne_nil (a b : Nat) (patch : Style) (r : Run) (cur : Nat) :
    runParts a b patch r cur ≠ [] := by
  unfold runParts
  split_ifs <;> simp

theorem runParts_total (a b : Nat) (patch : Style) (r : Run) (cur : Nat)
    (hab : a ≤ b) : runTotal (runParts a b patch r cur) = r.length := by
  unfold runParts
  split_ifs with h1 h2 h3 h2 h3 <;>
    simp only [runTotal, List.foldr, List.foldr_append] <;> omega

theorem runParts_styles (a b : Nat) (patch : Style) (r : Run) (cur : Nat)
    (hst : overlaps a b cur r.length → sStable patch r.style) :
    ∀ x ∈ runParts a b patch r cur, x.style = r.style := by
  intro x hx
  unfold runParts at hx
  split_ifs at hx with h1 h2 h3 h2 h3
  · rw [List.mem_singleton] at hx
    subst hx
    rfl
  · simp only [List.cons_append, List.nil_append, List.mem_cons,
      List.not_mem_nil, or_false] at hx
    rcases hx with rfl | rfl | rfl
    · rfl
    · exact hst h1
    · rfl
  · simp only [List.cons_append, List.nil_append, List.append_nil, List.mem_cons,
      List.not_mem_nil, or_false] at hx
    rcases hx with rfl | rfl
    · rfl
    · exact hst h1
  · simp only [List.nil_append, List.cons_append, List.mem_cons,
      List.not_mem_nil, or_false] at hx
    rcases hx with rfl | rfl
    · exact hst h1
    · rfl
  · simp only [List.nil_append, List.append_nil, List.mem_singleton] at hx
    subst hx
    exact hst h1

theorem mergeLoop_uniform_block (acc : Run) (parts rest : List Run)
    (hsty : ∀ x ∈ parts, x.style = acc.style) :
    mergeLoop acc (parts ++ rest) =
      mergeLoop ⟨acc.length + runTotal parts, acc.style⟩ rest := by
  induction parts generalizing acc with
  | nil =>
    rw [List.nil_append]
    have : (⟨acc.length + runTotal [], acc.style⟩ : Run) = acc := by
      simp [runTotal]
    rw [this]
  | cons p ps ih =>
    have hp : p.style = acc.style := hsty p (List.mem_cons_self p ps)
    have heq : areStylesEqual acc.style p.style = true := by
      simp [areStylesEqual, hp]
    have step : mergeLoop acc ((p :: ps) ++ rest) =
        mergeLoop ⟨acc.length + p.length, acc.style⟩ (ps ++ rest) := by
      rw [List.cons_append]
      simp [mergeLoop, heq]
    rw [step, ih ⟨acc.length + p.length, acc.style⟩
      (fun x hx => hsty x (List.mem_cons_of_mem p hx))]
    have : acc.length + p.length + runTotal ps = acc.length + runTotal (p :: ps) := by
      simp only [runTotal, List.foldr]
      omega
    rw [this]

theorem mergeLoop_cons_of_ne (acc hd : Run) (tl : List Run)
    (hne : hd.style ≠ acc.style) :
    mergeLoop acc (hd :: tl) = acc :: mergeLoop hd tl := by
  have heq : areStylesEqual acc.style hd.style = false := by
    simp only [areStylesEqual, beq_eq_false_iff_ne, ne_eq]
    exact fun h => hne h.symm
  simp [mergeLoop, heq]

theorem rangeStable_cons (a b : Nat) (patch : Style) (r : Run) (rs : List Run)
    (cur : Nat) :
    rangeStable a b patch (r :: rs) cur ↔
      ((overlaps a b cur r.length → sStable patch r.style) ∧
        rangeStable a b patch rs (cur + r.length)) := Iff.rfl

theorem rangeStable_append (a b : Nat) (patch : Style) (xs ys : List Run)
    (cur : Nat) :
    rangeStable a b patch (xs ++ ys) cur ↔
      rangeStable a b patch xs cur ∧
        rangeStable a b patch ys (cur + runTotal xs) := by
  induction xs generalizing cur with
  | nil =>
    rw [List.nil_append]
    have h0 : runTotal [] = 0 := rfl
    rw [h0, Nat.add_zero]
    exact (and_iff_right trivial).symm
  | cons x xs ih =>
    rw [List.cons_append, rangeStable_cons, rangeStable_cons, ih, and_assoc]
    have harith : cur + x.length + runTotal xs = cur + runTotal (x :: xs) := by
      simp only [runTotal, List.foldr]
      omega
    rw [harith]

theorem runParts_rangeStable (a b : Nat) (patch : Style) (r : Run) (cur : Nat)
    (hab : a ≤ b) (hnd : nodupKeys patch) :
    rangeStable a b patch (runParts a b patch r cur) cur := by
  unfold runParts
  split_ifs with h1 h2 h3 h2 h3
  · exact ⟨fun hov => absurd h1 hov, trivial⟩
  · have hna : a < cur + r.length ∧ cur < b := by
      push_neg at h1
      exact ⟨by omega, h1.2⟩
    simp only [List.cons_append, List.nil_append, List.singleton_append, List.append_nil]
    refine ⟨fun hov => absurd (Or.inl (show cur + (a - cur) ≤ a by omega)) hov,
      fun hov => spreadStyle_idem r.style patch hnd,
      fun hov => absurd (Or.inr (show cur + (a - cur) +
        (min (cur + r.length) b - max cur a) ≥ b by omega)) hov,
      trivial⟩
  · have hna : a < cur + r.length ∧ cur < b := by
      push_neg at h1
      exact ⟨by omega, h1.2⟩
    simp only [List.cons_append, List.nil_append, List.singleton_append, List.append_nil]
    exact ⟨fun hov => absurd (Or.inl (show cur + (a - cur) ≤ a by omega)) hov,
      fun hov => spreadStyle_idem r.style patch hnd, trivial⟩
  · have hna : a < cur + r.length ∧ cur < b := by
      push_neg at h1
      exact ⟨by omega, h1.2⟩
    simp only [List.cons_append, List.nil_append, List.singleton_append, List.append_nil]
    exact ⟨fun hov => spreadStyle_idem r.style patch hnd,
      fun hov => absurd (Or.inr (show cur +
        (min (cur + r.length) b - max cur a) ≥ b by omega)) hov, trivial⟩
  · rw [List.nil_append, List.append_nil]
    exact ⟨fun hov => spreadStyle_idem r.style patch hnd, trivial⟩

theorem applyRangeAux_rangeStable (a b : Nat) (patch : Style) (R : List Run)
    (cur : Nat) (hab : a ≤ b) (hnd : nodupKeys patch) :
    rangeStable a b patch (applyRangeAux a b patch R cur) cur := by
  induction R generalizing cur with
  | nil => trivial
  | cons r rs ih =>
    rw [applyRangeAux_cons, rangeStable_append]
    refine ⟨runParts_rangeStable a b patch r cur hab hnd, ?_⟩
    rw [runParts_total a b patch r cur hab]
    exact ih (cur + r.length)

theorem runParts_seams (a b : Nat) (patch : Style) (r : Run) (cur : Nat)
    (hnd : nodupKeys patch) :
    List.Chain' (fun x y : Run => x.style = y.style → sStable patch x.style)
      (runParts a b patch r cur) := by
  unfold runParts
  split_ifs with h1 h2 h3 h2 h3 <;>
    try simp only [List.cons_append, List.nil_append, List.singleton_append,
      List.append_nil]
  · exact List.chain'_singleton _
  · rw [List.chain'_cons, List.chain'_cons]
    refine ⟨fun hEq => hEq.symm, fun hEq => spreadStyle_idem r.style patch hnd,
      List.chain'_singleton _⟩
  · rw [List.chain'_cons]
    exact ⟨fun hEq => hEq.symm, List.chain'_singleton _⟩
  · rw [List.chain'_cons]
    exact ⟨fun hEq => spreadStyle_idem r.style patch hnd, List.chain'_singleton _⟩
  · exact List.chain'_singleton _

theorem runParts_head_style (a b : Nat) (patch : Style) (r : Run) (cur : Nat) :
    ∀ x ∈ (runParts a b patch r cur).head?,
      x.style = r.style ∨ x.style = spreadStyle r.style patch := by
  unfold runParts
  split_ifs <;>
    simp only [List.cons_append, List.nil_append, List.singleton_append,
      List.append_nil, List.head?_cons, Option.mem_def, Option.some.injEq] <;>
    rintro x rfl
  · exact Or.inl rfl
  · exact Or.inl rfl
  · exact Or.inl rfl
  · exact Or.inr rfl
  · exact Or.inr rfl

theorem runParts_getLast_style (a b : Nat) (patch : Style) (r : Run) (cur : Nat) :
    ∀ x ∈ (runParts a b patch r cur).getLast?,
      x.style = r.style ∨ x.style = spreadStyle r.style patch := by
  unfold runParts
  split_ifs <;>
    simp only [List.cons_append, List.nil_append, List.singleton_append,
      List.append_nil, List.getLast?_singleton, List.getLast?_cons_cons,
      Option.mem_def, Option.some.injEq] <;>
    rintro x rfl
  · exact Or.inl rfl
  · exact Or.inl rfl
  · exact Or.inr rfl
  · exact Or.inl rfl
  · exact Or.inr rfl

theorem applyRangeAux_seams (a b : Nat) (patch : Style) (hnd : nodupKeys patch) :
    ∀ (R : List Run) (cur : Nat), stylesSeparated R →
      seamsStable patch (applyRangeAux a b patch R cur) := by
  intro R
  induction R with
  | nil => intro cur _; exact List.chain'_nil
  | cons r rs ih =>
    intro cur hsep
    rw [applyRangeAux_cons]
    unfold seamsStable
    rw [List.chain'_append]
    refine ⟨runParts_seams a b patch r cur hnd,
      ih (cur + r.length) ((List.chain'_cons'.mp hsep).2), ?_⟩
    intro x hx y hy
    cases rs with
    | nil =>
      simp only [applyRangeAux] at hy
      cases hy
    | cons r2 rs' =>
      rw [applyRangeAux_cons] at hy
      obtain ⟨hd2, tl2, hp2⟩ :=
        List.exists_cons_of_ne_nil (runParts_ne_nil a b patch r2 (cur + r.length))
      rw [hp2, List.cons_append, List.head?_cons] at hy
      have hy2 : hd2 = y := by simpa using hy
      have hysty : y.style = r2.style ∨ y.style = spreadStyle r2.style patch := by
        rw [← hy2]
        refine runParts_head_style a b patch r2 (cur + r.length) hd2 ?_
        rw [hp2]
        rfl
      have hxsty : x.style = r.style ∨ x.style = spreadStyle r.style patch :=
        runParts_getLast_style a b patch r cur x hx
      have hne : r.style ≠ r2.style := (List.chain'_cons.mp hsep).1
      intro hEq
      rcases hxsty with hx1 | hx1
      · rcases hysty with hy1 | hy1
        · rw [hx1, hy1] at hEq
          exact absurd hEq hne
        · rw [hx1] at hEq ⊢
          rw [hy1] at hEq
          rw [hEq]
          exact spreadStyle_idem r2.style patch hnd
      · rw [hx1]
        exact spreadStyle_idem r.style patch hnd

theorem mergeLoop_rangeStable (a b : Nat) (patch : Style) :
    ∀ (rest : List Run) (acc : Run) (cur : Nat),
      rangeStable a b patch (acc :: rest) cur →
      seamsStable patch (acc :: rest) →
      rangeStable a b patch (mergeLoop acc rest) cur := by
  intro rest
  induction rest with
  | nil => intro acc cur h _; exact h
  | cons r rs ih =>
    intro acc cur h hseams
    by_cases heq : areStylesEqual acc.style r.style
    · have hstyEq : acc.style = r.style := by
        simpa [areStylesEqual] using heq
      have hstab : sStable patch acc.style :=
        (List.chain'_cons.mp hseams).1 hstyEq
      simp only [mergeLoop, heq, if_true]
      apply ih ⟨acc.length + r.length, acc.style⟩ cur
      · refine ⟨fun _ => hstab, ?_⟩
        rw [rangeStable_cons, rangeStable_cons] at h
        show rangeStable a b patch rs (cur + (acc.length + r.length))
        rw [← Nat.add_assoc]
        exact h.2.2
      · unfold seamsStable
        rw [List.chain'_cons']
        refine ⟨fun y _ _ => hstab, ?_⟩
        have := (List.chain'_cons.mp hseams).2
        exact (List.chain'_cons'.mp this).2
    · have hne : r.style ≠ acc.style := by
        intro hcontra
        exact absurd (by simp [areStylesEqual, hcontra]) heq
      rw [mergeLoop_cons_of_ne acc r rs hne]
      rw [rangeStable_cons] at h ⊢
      refine ⟨h.1, ?_⟩
      exact ih r (cur + acc.length) h.2 (List.chain'_cons.mp hseams).2

theorem mergeAdjacentRuns_rangeStable (a b : Nat) (patch : Style) (L : List Run)
    (cur : Nat) (h : rangeStable a b patch L cur) (hseams : seamsStable patch L) :
    rangeStable a b patch (mergeAdjacentRuns L) cur := by
  cases L with
  | nil => trivial
  | cons r rs => exact mergeLoop_rangeStable a b patch rs r cur h hseams

/-- Rebuilding a ledger that is already maximally merged and patch-stable on
the styled range, then merging, returns it unchanged. -/
theorem merge_applyRange_of_stable (a b : Nat) (patch : Style) (hab : a ≤ b) :
    ∀ (M : List Run) (cur : Nat), stylesSeparated M →
      rangeStable a b patch M cur →
      mergeAdjacentRuns (applyRangeAux a b patch M cur) = M := by
  intro M
  induction M with
  | nil => intro cur _ _; rfl
  | cons m M' ih =>
    intro cur hsep h
    rw [applyRangeAux_cons]
    obtain ⟨hd, tl, hp⟩ :=
      List.exists_cons_of_ne_nil (runParts_ne_nil a b patch m cur)
    have hAllSty : ∀ x ∈ hd :: tl, x.style = m.style := by
      rw [← hp]
      exact runParts_styles a b patch m cur (rangeStable_cons a b patch m M' cur
        |>.mp h).1
    have hTot : hd.length + runTotal tl = m.length := by
      have := runParts_total a b patch m cur hab
      rw [hp] at this
      simpa [runTotal, List.foldr] using this
    rw [hp, List.cons_append]
    show mergeLoop hd (tl ++ applyRangeAux a b patch M' (cur + m.length)) = m :: M'
    rw [mergeLoop_uniform_block hd tl _ (fun x hx =>
      (hAllSty x (List.mem_cons_of_mem hd hx)).trans
        (hAllSty hd (List.mem_cons_self hd tl)).symm)]
    have hacc : (⟨hd.length + runTotal tl, hd.style⟩ : Run) = m := by
      rw [hTot, hAllSty hd (List.mem_cons_self hd tl)]
    rw [hacc]
    cases M' with
    | nil => rfl
    | cons m2 M'' =>
      rw [applyRangeAux_cons]
      obtain ⟨hd2, tl2, hp2⟩ :=
        List.exists_cons_of_ne_nil (runParts_ne_nil a b patch m2 (cur + m.length))
      have hstab2 : overlaps a b (cur + m.length) m2.length → sStable patch m2.style :=
        ((rangeStable_cons a b patch m2 M'' (cur + m.length)).mp
          ((rangeStable_cons a b patch m (m2 :: M'') cur).mp h).2).1
      have hhd2 : hd2.style = m2.style := by
        refine runParts_styles a b patch m2 (cur + m.length) hstab2 hd2 ?_
        rw [hp2]
        exact List.mem_cons_self hd2 tl2
      have hne : hd2.style ≠ m.style := by
        rw [hhd2]
        exact fun hcontra => (List.chain'_cons.mp hsep).1 hcontra.symm
      rw [hp2, List.cons_append, mergeLoop_cons_of_ne m hd2 _ hne]
      congr 1
      have hrec := ih (cur + m.length) (List.chain'_cons.mp hsep).2
        ((rangeStable_cons a b patch m (m2 :: M'') cur).mp h).2
      rw [applyRangeAux_cons, hp2, List.cons_append] at hrec
      exact hrec

/-- Per-paragraph idempotence of the style pass, for a maximally-merged
ledger. -/
theorem applyStyleToParagraph_idem (a b : Nat) (patch : Style) (p : Paragraph)
    (hab : a ≤ b) (hnd : nodupKeys patch) (hsep : stylesSeparated p.runs) :
    applyStyleToParagraph a b patch (applyStyleToParagraph a b patch p)
      = applyStyleToParagraph a b patch p := by
  unfold applyStyleToParagraph
  have hM : mergeAdjacentRuns (applyRangeAux a b patch
      (mergeAdjacentRuns (applyRangeAux a b patch p.runs 0)) 0)
      = mergeAdjacentRuns (applyRangeAux a b patch p.runs 0) := by
    refine merge_applyRange_of_stable a b patch hab _ 0 ?_ ?_
    · exact stylesSeparated_mergeAdjacentRuns _
    · refine mergeAdjacentRuns_rangeStable a b patch _ 0 ?_ ?_
      · exact applyRangeAux_rangeStable a b patch p.runs 0 hab hnd
      · exact applyRangeAux_seams a b patch hnd p.runs 0 hsep
  simp only [hM]

theorem applyStyleAcross_get? (seg : List Nat → List (List Nat)) (d : Document)
    (spi soff epi eoff : Nat) (patch : Style) (hlt : spi < epi) (j : Nat) :
    (applyStyleAcrossParagraphs seg d spi soff epi eoff patch).paragraphs.get? j =
      if j = epi then
        (d.paragraphs.get? j).map (fun p => applyStyleToParagraph 0 eoff patch p)
      else if spi + 1 ≤ j ∧ j < epi then
        (d.paragraphs.get? j).map
          (fun p => applyStyleToParagraph 0 (getGraphemeCount seg p.text) patch p)
      else if j = spi then
        (d.paragraphs.get? j).map
          (fun p => applyStyleToParagraph soff (getGraphemeCount seg p.text) patch p)
      else d.paragraphs.get? j := by
  unfold applyStyleAcrossParagraphs
  dsimp only
  rw [modifyIdx_get?]
  by_cases hje : j = epi
  · rw [if_pos hje, if_pos hje]
    rw [foldl_modify_get?_of_not_mem _ _ _ j
      (fun hm => by have := List.mem_range'_1.mp hm; omega)]
    rw [modifyIdx_get?, if_neg (by omega)]
  · rw [if_neg hje, if_neg hje]
    by_cases hjL : spi + 1 ≤ j ∧ j < epi
    · rw [if_pos hjL]
      rw [foldl_modify_get?_of_mem _ _ _ j
        (by rw [List.mem_range'_1]; omega) (List.nodup_range' _ _)]
      rw [modifyIdx_get?, if_neg (by omega)]
    · rw [if_neg hjL]
      rw [foldl_modify_get?_of_not_mem _ _ _ j
        (fun hm => by have := List.mem_range'_1.mp hm; omega)]
      by_cases hjs : j = spi
      · rw [if_pos hjs, modifyIdx_get?, if_pos hjs]
      · rw [if_neg hjs, modifyIdx_get?, if_neg hjs]

theorem applyStyleAcross_length (seg : List Nat → List (List Nat)) (d : Document)
    (spi soff epi eoff : Nat) (patch : Style) :
    (applyStyleAcrossParagraphs seg d spi soff epi eoff patch).paragraphs.length
      = d.paragraphs.length := by
  unfold applyStyleAcrossParagraphs
  dsimp only
  rw [modifyIdx_length, foldl_modify_length, modifyIdx_length]

/-- `validPos` only looks at the paragraph count and the texts, so it
transfers along operations preserving both. -/
theorem validPos_congr (seg : List Nat → List (List Nat)) (d d' : Document)
    (p : Pos) (hlen : d'.paragraphs.length = d.paragraphs.length)
    (htext : ∀ j : Nat, (d'.paragraphs.get? j).map Paragraph.text =
      (d.paragraphs.get? j).map Paragraph.text) :
    validPos seg d' p ↔ validPos seg d p := by
  unfold validPos paraAt getParagraph?
  by_cases h0 : 0 ≤ p.paragraphIndex
  · rw [if_pos h0, if_pos h0]
    have ht := htext p.paragraphIndex.toNat
    cases hg : d.paragraphs.get? p.paragraphIndex.toNat with
    | none =>
      have hg' : d'.paragraphs.get? p.paragraphIndex.toNat = none := by
        rw [hg] at ht
        cases hgg : d'.paragraphs.get? p.paragraphIndex.toNat
        · rfl
        · rw [hgg] at ht; cases ht
      rw [hg']
    | some q =>
      obtain ⟨q', hg'⟩ : ∃ q', d'.paragraphs.get? p.paragraphIndex.toNat = some q' := by
        rw [hg] at ht
        cases hgg : d'.paragraphs.get? p.paragraphIndex.toNat
        · rw [hgg] at ht; cases ht
        · exact ⟨_, rfl⟩
      rw [hg'] 
      rw [hg, hg'] at ht
      simp only [Option.map_some', Option.some.injEq] at ht
      simp only [Option.isSome_some, Option.getD_some, true_and, ht]
  · rw [if_neg h0, if_neg h0]

theorem applyStyleToParagraph_text (a b : Nat) (patch : Style) (p : Paragraph) :
    (applyStyleToParagraph a b patch p).text = p.text := rfl

theorem document_ext (d1 d2 : Document)
    (h : d1.paragraphs = d2.paragraphs) : d1 = d2 := by
  cases d1
  cases d2
  simpa using h

/-- C7 (amended).  On a document satisfying invariant I3 (no paragraph holds
two adjacent runs with structurally equal styles), `applyStyle` is
idempotent: a second identical call leaves the result unchanged.  The patch
is a JavaScript object, hence has duplicate-free keys.  (Without I3 the claim
fails: see the counterexample, where the first call coalesces two equal-style
runs and the second call re-splits them around an empty range.) -/
theorem c7_applyStyle_idempotent (seg : List Nat → List (List Nat))
    (d : Document) (s e : Pos) (patch : Style) (d' : Document)
    (hnd : nodupKeys patch)
    (hI3 : ∀ p ∈ d.paragraphs, stylesSeparated p.runs)
    (h : applyStyle seg d s e patch = .ok d') :
    applyStyle seg d' s e patch = .ok d' := by
  unfold applyStyle at h
  rcases validatePosition_spec seg d s with ⟨hs, heq⟩ | ⟨hs, heq⟩
  case inr => rw [heq] at h; cases h
  rw [heq] at h
  rcases validatePosition_spec seg d e with ⟨he, heq2⟩ | ⟨he, heq2⟩
  case inl.intro.inr.intro => rw [heq2] at h; cases h
  rw [heq2] at h
  by_cases hr0 : startAfterEnd s e
  · rw [if_pos hr0] at h; cases h
  rw [if_neg hr0] at h
  have hs0 : 0 ≤ s.paragraphIndex := ((getParagraph?_isSome_iff d _).mp hs.1).1
  have he0 : 0 ≤ e.paragraphIndex := ((getParagraph?_isSome_iff d _).mp he.1).1
  have hr := hr0
  unfold startAfterEnd at hr
  push_neg at hr
  by_cases hp : s.paragraphIndex = e.paragraphIndex
  · rw [if_pos hp] at h
    cases h
    have hshape_text : ∀ j : Nat,
        ((Document.mk (modifyIdx d.paragraphs s.paragraphIndex.toNat
          (applyStyleToParagraph s.offset.toNat e.offset.toNat patch))).paragraphs.get? j).map
            Paragraph.text = (d.paragraphs.get? j).map Paragraph.text :=
      fun j => modifyIdx_get?_map d.paragraphs s.paragraphIndex.toNat
        (applyStyleToParagraph s.offset.toNat e.offset.toNat patch)
        Paragraph.text (fun p => rfl) j
    have hlen : (Document.mk (modifyIdx d.paragraphs s.paragraphIndex.toNat
        (applyStyleToParagraph s.offset.toNat e.offset.toNat patch))).paragraphs.length
        = d.paragraphs.length := modifyIdx_length _ _ _
    have hvs : validPos seg (Document.mk (modifyIdx d.paragraphs s.paragraphIndex.toNat
        (applyStyleToParagraph s.offset.toNat e.offset.toNat patch))) s :=
      (validPos_congr seg d _ s hlen hshape_text).mpr hs
    have hve : validPos seg (Document.mk (modifyIdx d.paragraphs s.paragraphIndex.toNat
        (applyStyleToParagraph s.offset.toNat e.offset.toNat patch))) e :=
      (validPos_congr seg d _ e hlen hshape_text).mpr he
    unfold applyStyle
    have hq1 : validatePosition seg (Document.mk (modifyIdx d.paragraphs
        s.paragraphIndex.toNat (applyStyleToParagraph s.offset.toNat e.offset.toNat
        patch))) s = .ok () := by
      rcases validatePosition_spec seg (Document.mk (modifyIdx d.paragraphs
          s.paragraphIndex.toNat (applyStyleToParagraph s.offset.toNat
          e.offset.toNat patch))) s with ⟨-, hq⟩ | ⟨hbad, -⟩
      · exact hq
      · exact absurd hvs hbad
    have hq2 : validatePosition seg (Document.mk (modifyIdx d.paragraphs
        s.paragraphIndex.toNat (applyStyleToParagraph s.offset.toNat e.offset.toNat
        patch))) e = .ok () := by
      rcases validatePosition_spec seg (Document.mk (modifyIdx d.paragraphs
          s.paragraphIndex.toNat (applyStyleToParagraph s.offset.toNat
          e.offset.toNat patch))) e with ⟨-, hq⟩ | ⟨hbad, -⟩
      · exact hq
      · exact absurd hve hbad
    rw [hq1, hq2, if_neg hr0, if_pos hp]
    refine congrArg Except.ok (document_ext _ _ ?_)
    show modifyIdx (modifyIdx d.paragraphs s.paragraphIndex.toNat _)
      s.paragraphIndex.toNat _ = modifyIdx d.paragraphs s.paragraphIndex.toNat _
    refine List.ext_get? ?_
    intro j
    rw [modifyIdx_get?, modifyIdx_get?]
    by_cases hj : j = s.paragraphIndex.toNat
    · rw [if_pos hj, if_pos hj]
      cases hg : d.paragraphs.get? j with
      | none => rfl
      | some q =>
        simp only [Option.map_some']
        refine congrArg some ?_
        have hab : s.offset.toNat ≤ e.offset.toNat := by
          have := hr.2 hp
          have := hs.2.1
          omega
        exact applyStyleToParagraph_idem s.offset.toNat e.offset.toNat patch q
          hab hnd (hI3 q (List.get?_mem hg))
    · rw [if_neg hj, if_neg hj]
  · rw [if_neg hp] at h
    cases h
    have hlt : s.paragraphIndex.toNat < e.paragraphIndex.toNat := by
      rcases hr.1.lt_or_eq with h' | h'
      · omega
      · exact absurd h' hp
    have hshape_text : ∀ j : Nat,
        ((applyStyleAcrossParagraphs seg d s.paragraphIndex.toNat s.offset.toNat
          e.paragraphIndex.toNat e.offset.toNat patch).paragraphs.get? j).map
            Paragraph.text = (d.paragraphs.get? j).map Paragraph.text := by
      intro j
      rw [applyStyleAcross_get? seg d _ _ _ _ patch hlt j]
      split_ifs <;> cases hg : d.paragraphs.get? j <;>
        simp [applyStyleToParagraph_text]
    have hlen : (applyStyleAcrossParagraphs seg d s.paragraphIndex.toNat
        s.offset.toNat e.paragraphIndex.toNat e.offset.toNat patch).paragraphs.length
        = d.paragraphs.length := applyStyleAcross_length _ _ _ _ _ _ _
    have hvs : validPos seg (applyStyleAcrossParagraphs seg d s.paragraphIndex.toNat
        s.offset.toNat e.paragraphIndex.toNat e.offset.toNat patch) s :=
      (validPos_congr seg d _ s hlen hshape_text).mpr hs
    have hve : validPos seg (applyStyleAcrossParagraphs seg d s.paragraphIndex.toNat
        s.offset.toNat e.paragraphIndex.toNat e.offset.toNat patch) e :=
      (validPos_congr seg d _ e hlen hshape_text).mpr he
    unfold applyStyle
    have hq1 : validatePosition seg (applyStyleAcrossParagraphs seg d
        s.paragraphIndex.toNat s.offset.toNat e.paragraphIndex.toNat
        e.offset.toNat patch) s = .ok () := by
      rcases validatePosition_spec seg (applyStyleAcrossParagraphs seg d
          s.paragraphIndex.toNat s.offset.toNat e.paragraphIndex.toNat
          e.offset.toNat patch) s with ⟨-, hq⟩ | ⟨hbad, -⟩
      · exact hq
      · exact absurd hvs hbad
    have hq2 : validatePosition seg (applyStyleAcrossParagraphs seg d
        s.paragraphIndex.toNat s.offset.toNat e.paragraphIndex.toNat
        e.offset.toNat patch) e = .ok () := by
      rcases validatePosition_spec seg (applyStyleAcrossParagraphs seg d
          s.paragraphIndex.toNat s.offset.toNat e.paragraphIndex.toNat
          e.offset.toNat patch) e with ⟨-, hq⟩ | ⟨hbad, -⟩
      · exact hq
      · exact absurd hve hbad
    rw [hq1, hq2, if_neg hr0, if_neg hp]
    refine congrArg Except.ok (document_ext _ _ ?_)
    refine List.ext_get? ?_
    intro j
    rw [applyStyleAcross_get? seg _ _ _ _ _ patch hlt j,
      applyStyleAcross_get? seg d _ _ _ _ patch hlt j]
    have hsoff : 0 ≤ s.offset := hs.2.1
    split_ifs with h1 h2 h3
    · cases hg : d.paragraphs.get? j with
      | none => rfl
      | some q =>
        simp only [Option.map_some']
        refine congrArg some ?_
        exact applyStyleToParagraph_idem 0 e.offset.toNat patch q (Nat.zero_le _)
          hnd (hI3 q (List.get?_mem hg))
    · cases hg : d.paragraphs.get? j with
      | none => rfl
      | some q =>
        simp only [Option.map_some']
        refine congrArg some ?_
        exact applyStyleToParagraph_idem 0 (getGraphemeCount seg q.text) patch q
          (Nat.zero_le _) hnd (hI3 q (List.get?_mem hg))
    · cases hg : d.paragraphs.get? j with
      | none => rfl
      | some q =>
        simp only [Option.map_some']
        refine congrArg some ?_
        have hparaAt : paraAt d s.paragraphIndex = q := by
          unfold paraAt getParagraph?
          rw [if_pos hs0]
          rw [h3] at hg
          rw [hg]
          rfl
        have hab : s.offset.toNat ≤ getGraphemeCount seg q.text := by
          have h2 := hs.2.2
          rw [hparaAt] at h2
          omega
        exact applyStyleToParagraph_idem s.offset.toNat (getGraphemeCount seg q.text)
          patch q hab hnd (hI3 q (List.get?_mem hg))
    · rfl

/-- C7 counterexample.  On a document violating I3 (two adjacent runs with
equal styles, a state `insertText` produces), `applyStyle` over the valid
empty range `(offset 2, offset 2)` is not idempotent: the first call merges
the two runs into one, the second call re-splits that run around the empty
range, leaving a different run structure (including a zero-length run). -/
theorem c7_applyStyle_not_idempotent_on_unmerged_runs :
    applyStyle segmentUnits
      ⟨[⟨[97, 98, 99], [⟨2, styleSixteen⟩, ⟨1, styleSixteen⟩], 0⟩]⟩
      ⟨0, 2⟩ ⟨0, 2⟩ styleTwenty
      = .ok ⟨[⟨[97, 98, 99], [⟨3, styleSixteen⟩], 0⟩]⟩ ∧
    applyStyle segmentUnits ⟨[⟨[97, 98, 99], [⟨3, styleSixteen⟩], 0⟩]⟩
      ⟨0, 2⟩ ⟨0, 2⟩ styleTwenty
      = .ok ⟨[⟨[97, 98, 99],
          [⟨2, styleSixteen⟩, ⟨0, styleTwenty⟩, ⟨1, styleSixteen⟩], 0⟩]⟩ ∧
    ([⟨3, styleSixteen⟩] : List Run) ≠
      [⟨2, styleSixteen⟩, ⟨0, styleTwenty⟩, ⟨1, styleSixteen⟩] :=
  ⟨rfl, rfl, by decide⟩

/-- Witness for the amended C7 on a concrete I3-satisfying document. -/
theorem c7_applyStyle_idempotent_witness :
    applyStyle segmentUnits
      ⟨[⟨[97, 98, 99], [⟨2, styleTwenty⟩, ⟨1, styleSixteen⟩], 0⟩]⟩
      ⟨0, 0⟩ ⟨0, 2⟩ styleTwenty
      = .ok ⟨[⟨[97, 98, 99], [⟨2, styleTwenty⟩, ⟨1, styleSixteen⟩], 0⟩]⟩ := by
  refine c7_applyStyle_idempotent segmentUnits
    ⟨[⟨[97, 98, 99], [⟨3, styleSixteen⟩], 0⟩]⟩ ⟨0, 0⟩ ⟨0, 2⟩ styleTwenty
    _ (List.pairwise_singleton _ _) ?_ rfl
  intro p hp
  rw [List.mem_singleton] at hp
  subst hp
  exact List.chain'_singleton _

/-! ## copyText text field (C3) and sliceTextByGraphemes (C9) -/

theorem jsResolveIndex_le (len : Nat) (i : Int) : jsResolveIndex len i ≤ len := by
  unfold jsResolveIndex
  split_ifs <;> omega

/-- C9 (amended).  `sliceTextByGraphemes` never fails: on an existing
paragraph with nonempty text it returns the concatenation of the whole
grapheme clusters `[resolve(start), resolve(end))` of the cluster list, the
resolution following ECMAScript slice semantics (negative indices count from
the end, then both are clamped into `[0, count]`), so the result is never cut
at a code-unit boundary inside a cluster. -/
theorem c9_slice_total_clamped_cluster_aligned (seg : List Nat → List (List Nat))
    (d : Document) (index start : Int) (stop : Option Int) (p : Paragraph)
    (hp : getParagraph? d index = some p) (hne : ¬ p.text = []) :
    sliceTextByGraphemes seg d index start stop =
      (((seg p.text).drop (jsResolveIndex (getGraphemeCount seg p.text) start)).take
        ((match stop with
          | none => getGraphemeCount seg p.text
          | some j => jsResolveIndex (getGraphemeCount seg p.text) j)
          - jsResolveIndex (getGraphemeCount seg p.text) start)).flatten ∧
    jsResolveIndex (getGraphemeCount seg p.text) start ≤ getGraphemeCount seg p.text ∧
    ∀ j : Int, stop = some j →
      jsResolveIndex (getGraphemeCount seg p.text) j ≤ getGraphemeCount seg p.text := by
  refine ⟨?_, jsResolveIndex_le _ _, fun j _ => jsResolveIndex_le _ _⟩
  unfold sliceTextByGraphemes
  rw [hp]
  dsimp only
  rw [if_neg hne]
  unfold jsSliceList
  dsimp only
  congr 1
  cases stop with
  | none =>
    rw [List.drop_take]
    rfl
  | some j =>
    rw [List.drop_take]
    rfl

/-- Witness for the amended C9 at the counterexample's input: start `-1`
resolves to cluster index 2 of 3 and the slice is the final cluster. -/
theorem c9_slice_total_clamped_cluster_aligned_witness :
    sliceTextByGraphemes segmentUnits
      ⟨[⟨[97, 98, 99], [⟨3, styleSixteen⟩], 0⟩]⟩ 0 (-1) none = [99] := by
  have h := c9_slice_total_clamped_cluster_aligned segmentUnits
    ⟨[⟨[97, 98, 99], [⟨3, styleSixteen⟩], 0⟩]⟩ 0 (-1) none
    ⟨[97, 98, 99], [⟨3, styleSixteen⟩], 0⟩ rfl (by decide)
  exact h.1.trans rfl

/-! ## Round-trip on a single-run paragraph (C4) -/

theorem segmentUnits_singles (s : List Nat)
    (h : ∀ u ∈ s, isHighSurrogate u = false) :
    segmentUnits s = s.map (fun u => [u]) := by
  induction s with
  | nil => rfl
  | cons u rest ih =>
    cases rest with
    | nil => rfl
    | cons v rest' =>
      have hu : isHighSurrogate u = false := h u (List.mem_cons_self u _)
      have hcond : (isHighSurrogate u && isLowSurrogate v) = false := by
        rw [hu]
        rfl
      show (if isHighSurrogate u && isLowSurrogate v then _ else _) = _
      rw [hcond]
      simp only [Bool.false_eq_true, if_false, List.map_cons]
      refine congrArg ([u] :: ·) ?_
      exact ih (fun w hw => h w (List.mem_cons_of_mem u hw))

theorem flatten_map_singleton (l : List Nat) :
    (l.map (fun u => [u])).flatten = l := by
  induction l with
  | nil => rfl
  | cons x xs ih => simp [ih]

theorem count_singles (s : List Nat) (h : ∀ u ∈ s, isHighSurrogate u = false) :
    getGraphemeCount segmentUnits s = s.length := by
  unfold getGraphemeCount
  rw [segmentUnits_singles s h, List.length_map]

theorem findRun_single (n : Nat) (σ : Style) (k : Nat) :
    findRunAtOffsetRuns [⟨n, σ⟩] k =
      if n > k then ((0 : Int), k) else (-1, 0) := by
  unfold findRunAtOffsetRuns findRunAtOffsetAux
  by_cases h : 0 + n > k
  · rw [if_pos h, if_pos (by omega)]
    simp
  · rw [if_neg h, if_neg (by omega)]
    rfl

theorem updateRunLengthsRuns_single (m c : Nat) (σ : Style) :
    updateRunLengthsRuns [⟨m, σ⟩] c =
      if 0 < min m c then [⟨min m c, σ⟩] else [] := by
  simp only [updateRunLengthsRuns, updateRunLengthsAux, Nat.zero_add,
    Nat.sub_zero, List.filter]
  by_cases h : 0 < min m c
  · rw [if_pos h, show decide (min m c > 0) = true from by simpa using h]
  · rw [if_neg h, show decide (min m c > 0) = false from by simpa using h]

theorem merge_uniform (L : List Run) (σ : Style) (hL : L ≠ [])
    (h : ∀ x ∈ L, x.style = σ) :
    mergeAdjacentRuns L = [⟨runTotal L, σ⟩] := by
  cases L with
  | nil => exact absurd rfl hL
  | cons hd tl =>
    show mergeLoop hd tl = _
    have := mergeLoop_uniform_block hd tl []
      (fun x hx => (h x (List.mem_cons_of_mem hd hx)).trans
        (h hd (List.mem_cons_self hd tl)).symm)
    rw [List.append_nil] at this
    rw [this]
    show [(⟨hd.length + runTotal tl, hd.style⟩ : Run)] = _
    have hsty : hd.style = σ := h hd (List.mem_cons_self hd tl)
    have htot : hd.length + runTotal tl = runTotal (hd :: tl) := by
      simp only [runTotal, List.foldr]
    rw [hsty, htot]

theorem pasteFindRun_single (m : Nat) (σ : Style) (k : Int) :
    pasteFindRun [⟨m, σ⟩] k = if (m : Int) ≤ k then (1, m) else (0, 0) := by
  unfold pasteFindRun pasteFindRunAux
  by_cases h : ((0 : Nat) : Int) + (⟨m, σ⟩ : Run).length ≤ k
  · rw [if_pos h, if_pos (by simpa using h)]
    simp [pasteFindRunAux]
  · rw [if_neg h, if_neg (by simpa using h)]

theorem slice_glue (text : List Nat) (a b : Nat) (hab : a ≤ b) :
    text.take a ++ sliceCU text a b ++ text.drop b = text := by
  unfold sliceCU
  rw [show text.take a = (text.take b).take a from by
    rw [List.take_take, min_eq_left hab]]
  rw [List.take_append_drop, List.take_append_drop]

theorem runTotal_foldr_init (xs : List Run) (init : Nat) :
    List.foldr (fun r n => r.length + n) init xs = runTotal xs + init := by
  induction xs with
  | nil => simp [runTotal]
  | cons x xs ih =>
    simp only [List.foldr, runTotal] at *
    omega

theorem runTotal_append (xs ys : List Run) :
    runTotal (xs ++ ys) = runTotal xs + runTotal ys := by
  show List.foldr _ 0 (xs ++ ys) = _
  rw [List.foldr_append, runTotal_foldr_init]
  rfl

theorem jsSplice_one_single (x : α) (d : Int) : jsSplice [x] 1 d [] = [x] := by
  show [x].take 1 ++ [] ++ [x].drop (1 + d.toNat) = [x]
  rw [Nat.add_comm, List.drop_succ_cons, List.drop_nil]
  rfl

theorem updateRunsAfterDeletion_single (n a L : Nat) (σ : Style)
    (haL : a + L ≤ n) :
    updateRunsAfterDeletionRuns [⟨n, σ⟩] a L =
      if a < n then
        (if a + L < n then [⟨n - L, σ⟩]
         else if 0 < a then [⟨a, σ⟩] else [⟨n, σ⟩])
      else [⟨n, σ⟩] := by
  by_cases ha : a < n
  · have hfs : findRunAtOffsetRuns [⟨n, σ⟩] a = (0, a) := by
      rw [findRun_single, if_pos (by omega : n > a)]
    rw [if_pos ha]
    by_cases hL : a + L < n
    · have hfe : findRunAtOffsetRuns [⟨n, σ⟩] (a + L) = (0, a + L) := by
        rw [findRun_single, if_pos (by omega : n > a + L)]
      rw [if_pos hL]
      unfold updateRunsAfterDeletionRuns
      rw [hfs, hfe]
      dsimp only
      rw [if_neg (by decide : ¬ ((0 : Int) = -1))]
      simp only [Int.toNat_zero, List.get?]
      rw [if_pos trivial]
      rw [if_neg (show ¬ ((n : Int) - (L : Int) ≤ 0) by omega)]
      simp only [modifyIdx]
      simp only [List.cons.injEq, Run.mk.injEq, and_true]
      omega
    · have hfe : findRunAtOffsetRuns [⟨n, σ⟩] (a + L) = (-1, 0) := by
        rw [findRun_single, if_neg (by omega : ¬ n > a + L)]
      rw [if_neg hL]
      unfold updateRunsAfterDeletionRuns
      rw [hfs, hfe]
      dsimp only
      rw [if_neg (by decide : ¬ ((0 : Int) = -1))]
      simp only [Int.toNat_zero, List.get?]
      rw [if_neg (by decide : ¬ ((0 : Int) ≤ (-1 : Int)))]
      rw [if_neg (by decide : ¬ ((0 : Int) = (-1 : Int)))]
      by_cases ha0 : 0 < a
      · rw [if_pos ha0]
        rw [if_pos (show ((a : Nat) : Int) +
            ((n : Int) - ((a : Int) + (L : Int) - ((a : Int) - (a : Int)))) > 0 by omega)]
        simp only [modifyIdx]
        rw [jsSplice_one_single]
        simp only [List.cons.injEq, Run.mk.injEq, and_true]
        omega
      · rw [if_neg ha0]
        rw [if_neg (show ¬ (((a : Nat) : Int) +
            ((n : Int) - ((a : Int) + (L : Int) - ((a : Int) - (a : Int)))) > 0) by omega)]
        rw [show ((-1 : Int) - 0 + 1) = 0 from by decide]
        rfl
  · have hfs : findRunAtOffsetRuns [⟨n, σ⟩] a = (-1, 0) := by
      rw [findRun_single, if_neg (by omega : ¬ n > a)]
    rw [if_neg ha]
    unfold updateRunsAfterDeletionRuns
    rw [hfs]
    dsimp only
    rw [if_pos rfl]
theorem runTotal_singleton (r : Run) : runTotal [r] = r.length := by
  simp [runTotal]

theorem jsSliceList_take (l : List Nat) (a : Nat) (ha : a ≤ l.length) :
    jsSliceList l 0 (some ((a : Nat) : Int)) = l.take a := by
  unfold jsSliceList jsResolveIndex
  dsimp only
  rw [if_neg (by omega : ¬ ((0 : Int) < 0)),
    if_neg (by omega : ¬ (((a : Nat) : Int) < 0))]
  rw [Int.toNat_zero, show ((a : Nat) : Int).toNat = a by omega,
    min_eq_left (Nat.zero_le _), min_eq_left ha, List.drop_zero]

theorem jsSliceList_suffix (l : List Nat) (a : Nat) (ha : a ≤ l.length) :
    jsSliceList l ((a : Nat) : Int) none = l.drop a := by
  unfold jsSliceList jsResolveIndex
  dsimp only
  rw [if_neg (by omega : ¬ (((a : Nat) : Int) < 0))]
  rw [show ((a : Nat) : Int).toNat = a by omega, min_eq_left ha, List.take_length]

theorem insertRuns_nil_uniform (off : Int) (σ : Style) (K : List Run)
    (hKne : K ≠ []) (hK : ∀ x ∈ K, x.style = σ) :
    insertRunsAtOffsetRuns [] off K = [⟨runTotal K, σ⟩] := by
  unfold insertRunsAtOffsetRuns pasteFindRun pasteFindRunAux
  dsimp only
  rw [show (List.get? ([] : List Run) 0) = none from rfl]
  dsimp only
  rw [show (List.take 0 ([] : List Run)) = [] from rfl, List.nil_append]
  exact merge_uniform K σ hKne hK

theorem insertRuns_single_uniform (c2 a : Nat) (σ : Style) (K : List Run)
    (hK : ∀ x ∈ K, x.style = σ) (hac : a ≤ c2) :
    insertRunsAtOffsetRuns [⟨c2, σ⟩] ((a : Nat) : Int) K =
      [⟨c2 + runTotal K, σ⟩] := by
  unfold insertRunsAtOffsetRuns
  dsimp only
  rw [pasteFindRun_single]
  by_cases h : a < c2
  · rw [if_neg (show ¬ ((c2 : Int) ≤ ((a : Nat) : Int)) by omega)]
    dsimp only
    simp only [List.get?]
    simp only [Nat.cast_zero, sub_zero]
    rw [if_pos (show ((a : Nat) : Int) < ((⟨c2, σ⟩ : Run).length : Int) by
      show ((a : Nat) : Int) < ((c2 : Nat) : Int)
      omega)]
    rw [show (List.take 0 [(⟨c2, σ⟩ : Run)]) = [] from rfl,
      show (List.drop (0 + 1) [(⟨c2, σ⟩ : Run)]) = [] from rfl,
      List.nil_append, List.append_nil]
    by_cases ha0 : 0 < a
    · rw [if_pos (show ((a : Nat) : Int) > 0 by omega)]
      rw [merge_uniform _ σ (by
          intro hx
          rcases List.append_eq_nil.mp hx with ⟨-, hx2⟩
          exact List.cons_ne_nil _ _ hx2)
        (by
          intro x hx
          simp only [List.mem_append, List.mem_singleton] at hx
          rcases hx with (hx | hx) | hx
          · rw [hx]
          · exact hK x hx
          · rw [hx])]
      rw [runTotal_append, runTotal_append, runTotal_singleton, runTotal_singleton]
      simp only [List.cons.injEq, Run.mk.injEq, and_true]
      omega
    · rw [if_neg (show ¬ (((a : Nat) : Int) > 0) by omega), List.nil_append]
      rw [merge_uniform _ σ (by
          intro hx
          rcases List.append_eq_nil.mp hx with ⟨-, hx2⟩
          exact List.cons_ne_nil _ _ hx2)
        (by
          intro x hx
          simp only [List.mem_append, List.mem_singleton] at hx
          rcases hx with hx | hx
          · exact hK x hx
          · rw [hx])]
      rw [runTotal_append, runTotal_singleton]
      simp only [List.cons.injEq, Run.mk.injEq, and_true]
      omega
  · rw [if_pos (show (c2 : Int) ≤ ((a : Nat) : Int) by omega)]
    dsimp only
    rw [show (List.get? [(⟨c2, σ⟩ : Run)] 1) = none from rfl]
    dsimp only
    rw [show (List.take 1 [(⟨c2, σ⟩ : Run)]) = [(⟨c2, σ⟩ : Run)] from rfl]
    rw [merge_uniform _ σ (by
        intro hx
        rcases List.append_eq_nil.mp hx with ⟨hx1, -⟩
        exact List.cons_ne_nil _ _ hx1)
      (by
        intro x hx
        simp only [List.mem_append, List.mem_singleton] at hx
        rcases hx with hx | hx
        · rw [hx]
        · exact hK x hx)]
    rw [runTotal_append, runTotal_singleton]
theorem take_map_singleton (l : List Nat) (k : Nat) :
    ((l.map (fun u => [u])).take k).flatten = l.take k := by
  rw [← List.map_take, flatten_map_singleton]

theorem drop_map_singleton (l : List Nat) (k : Nat) :
    ((l.map (fun u => [u])).drop k).flatten = l.drop k := by
  rw [← List.map_drop, flatten_map_singleton]

theorem extractTextRange_single (text : List Nat) (n a b : Nat) (σ : Style)
    (y : Int) (hab : a ≤ b) (hb : b ≤ n) :
    extractTextRange segmentUnits ⟨text, [⟨n, σ⟩], y⟩ a b =
      if a < n then
        ⟨jsTrim (sliceCU text a b), if a < b then [⟨b - a, σ⟩] else []⟩
      else
        ⟨jsTrim (sliceCU text a b),
          [⟨getGraphemeCount segmentUnits (jsTrim (sliceCU text a b)), σ⟩]⟩ := by
  unfold extractTextRange
  dsimp only
  rw [findRun_single, findRun_single]
  by_cases ha : a < n
  · rw [if_pos (by omega : n > a), if_pos ha]
    dsimp only
    rw [if_neg (by decide : ¬ ((0 : Int) = -1))]
    by_cases hbn : b < n
    · rw [if_pos (by omega : n > b)]
      dsimp only
      rw [if_pos (by decide : (0 : Int) ≤ 0)]
      rw [show (List.take (Int.toNat 0 + 1 - Int.toNat 0)
        (List.drop (Int.toNat 0) [(⟨n, σ⟩ : Run)])) = [(⟨n, σ⟩ : Run)] from rfl]
      unfold extractLoop
      dsimp only
      rw [Nat.sub_zero, Nat.sub_zero, min_eq_right (by omega : b ≤ n)]
      by_cases hlt : a < b
      · rw [if_pos (by omega : b > a)]
        rfl
      · rw [if_neg (by omega : ¬ b > a)]
        rfl
    · rw [if_neg (by omega : ¬ n > b)]
      dsimp only
      rw [if_neg (by decide : ¬ ((0 : Int) ≤ (-1 : Int)))]
      rw [show (List.take (List.length [(⟨n, σ⟩ : Run)] - 1 + 1 - Int.toNat 0)
        (List.drop (Int.toNat 0) [(⟨n, σ⟩ : Run)])) = [(⟨n, σ⟩ : Run)] from rfl]
      unfold extractLoop
      dsimp only
      rw [Nat.sub_zero, Nat.sub_zero, min_eq_right (by omega : b ≤ n)]
      by_cases hlt : a < b
      · rw [if_pos (by omega : b > a)]
        rfl
      · rw [if_neg (by omega : ¬ b > a)]
        rfl
  · rw [if_neg (by omega : ¬ n > a), if_neg ha]
    dsimp only
    rw [if_pos rfl]
    rfl

theorem deleteWithinParagraph_single (text : List Nat) (a b : Nat) (σ : Style)
    (y : Int) (hsur : ∀ u ∈ text, isHighSurrogate u = false)
    (hab : a ≤ b) (hb : b ≤ text.length) :
    deleteWithinParagraph segmentUnits ⟨text, [⟨text.length, σ⟩], y⟩ a b =
      ⟨text.take a ++ text.drop b,
        if 0 < text.length - (b - a) then [⟨text.length - (b - a), σ⟩] else [],
        y⟩ := by
  have hseg : segmentUnits text = text.map (fun u => [u]) := segmentUnits_singles text hsur
  unfold deleteWithinParagraph
  dsimp only
  rw [hseg, List.length_map, min_eq_right hb, take_map_singleton, drop_map_singleton]
  unfold updateRunLengths
  dsimp only
  have hsur2 : ∀ u ∈ text.take a ++ text.drop b, isHighSurrogate u = false := by
    intro u hu
    rcases List.mem_append.mp hu with hu | hu
    · exact hsur u (List.mem_of_mem_take hu)
    · exact hsur u (List.mem_of_mem_drop hu)
  rw [count_singles _ hsur2]
  rw [updateRunsAfterDeletion_single _ _ _ _ (by omega)]
  have hlen : (text.take a ++ text.drop b).length = text.length - (b - a) := by
    rw [List.length_append, List.length_take, List.length_drop]
    omega
  rw [hlen]
  by_cases ha : a < text.length
  · rw [if_pos ha]
    by_cases hbn : a + (b - a) < text.length
    · rw [if_pos hbn, updateRunLengthsRuns_single]
      rw [min_eq_left (by omega : text.length - (b - a) ≤ text.length - (b - a))]
    · rw [if_neg hbn]
      by_cases ha0 : 0 < a
      · rw [if_pos ha0, updateRunLengthsRuns_single]
        rw [show min a (text.length - (b - a)) = a from by omega]
        rw [if_pos ha0, if_pos (by omega : 0 < text.length - (b - a))]
        rw [show text.length - (b - a) = a from by omega]
      · rw [if_neg ha0, updateRunLengthsRuns_single]
        rw [show min text.length (text.length - (b - a)) = 0 from by omega]
        rw [if_neg (by omega : ¬ (0 : Nat) < 0)]
        rw [if_neg (by omega : ¬ 0 < text.length - (b - a))]
  · rw [if_neg ha, updateRunLengthsRuns_single]
    rw [show min text.length (text.length - (b - a)) = text.length - (b - a) from by omega]
theorem validatePosition_single (text : List Nat) (runs : List Run) (y : Int)
    (k : Nat) (hsur : ∀ u ∈ text, isHighSurrogate u = false)
    (hk : k ≤ text.length) :
    validatePosition segmentUnits ⟨[⟨text, runs, y⟩]⟩ ⟨0, (k : Nat)⟩ = .ok () := by
  unfold validatePosition getParagraph?
  dsimp only
  rw [if_pos (le_refl (0 : Int)), Int.toNat_zero]
  simp only [List.get?]
  rw [count_singles text hsur]
  rw [if_neg (by omega :
    ¬ (((k : Nat) : Int) < 0 ∨ ((k : Nat) : Int) > ((text.length : Nat) : Int)))]

theorem copyText_single (text : List Nat) (a b : Nat) (σ : Style) (y : Int)
    (hsur : ∀ u ∈ text, isHighSurrogate u = false)
    (hab : a ≤ b) (hb : b ≤ text.length) :
    copyText segmentUnits ⟨[⟨text, [⟨text.length, σ⟩], y⟩]⟩ ⟨0, (a : Nat)⟩ ⟨0, (b : Nat)⟩ =
      .ok ⟨[extractTextRange segmentUnits ⟨text, [⟨text.length, σ⟩], y⟩ a b]⟩ := by
  unfold copyText
  rw [validatePosition_single text _ y a hsur (le_trans hab hb),
    validatePosition_single text _ y b hsur hb]
  rw [if_neg (show ¬ startAfterEnd ⟨0, (a : Nat)⟩ ⟨0, (b : Nat)⟩ by
    unfold startAfterEnd
    dsimp only
    omega)]
  rw [if_pos rfl]
  dsimp only
  rw [Int.toNat_zero]
  simp only [List.get?, Option.getD]
  rw [show ((a : Nat) : Int).toNat = a by omega, show ((b : Nat) : Int).toNat = b by omega]

theorem deleteText_single (text : List Nat) (a b : Nat) (σ : Style) (y : Int)
    (hsur : ∀ u ∈ text, isHighSurrogate u = false)
    (hab : a ≤ b) (hb : b ≤ text.length) :
    deleteText segmentUnits ⟨[⟨text, [⟨text.length, σ⟩], y⟩]⟩ ⟨0, (a : Nat)⟩ ⟨0, (b : Nat)⟩ =
      .ok ⟨[⟨text.take a ++ text.drop b,
        if 0 < text.length - (b - a) then [⟨text.length - (b - a), σ⟩] else [],
        y⟩]⟩ := by
  unfold deleteText
  rw [validatePosition_single text _ y a hsur (le_trans hab hb),
    validatePosition_single text _ y b hsur hb]
  rw [if_neg (show ¬ startAfterEnd ⟨0, (a : Nat)⟩ ⟨0, (b : Nat)⟩ by
    unfold startAfterEnd
    dsimp only
    omega)]
  rw [if_pos rfl]
  dsimp only
  rw [Int.toNat_zero]
  rw [show ((a : Nat) : Int).toNat = a by omega, show ((b : Nat) : Int).toNat = b by omega]
  rw [show (modifyIdx [(⟨text, [⟨text.length, σ⟩], y⟩ : Paragraph)] 0
      (fun p => deleteWithinParagraph segmentUnits p a b)) =
    [deleteWithinParagraph segmentUnits ⟨text, [⟨text.length, σ⟩], y⟩ a b] from rfl]
  rw [deleteWithinParagraph_single text a b σ y hsur hab hb]

theorem pasteText_single (p2 : Paragraph) (clip : ClipPara) (a : Nat)
    (ha : a ≤ p2.text.length) :
    pasteText ⟨[p2]⟩ ⟨0, (a : Nat)⟩ ⟨[clip]⟩ =
      .ok ⟨[⟨p2.text.take a ++ clip.text ++ p2.text.drop a,
        insertRunsAtOffsetRuns p2.runs ((a : Nat) : Int) clip.runs,
        p2.yOffset⟩]⟩ := by
  unfold pasteText getParagraph?
  dsimp only
  rw [if_pos (le_refl (0 : Int)), Int.toNat_zero]
  simp only [List.get?]
  rw [jsSliceList_take p2.text a ha, jsSliceList_suffix p2.text a ha]
  rw [if_pos trivial]
  rfl
/-- C4.  Corrected round-trip: on a single-paragraph, single-run document
whose code units are all single-unit grapheme clusters, with a valid range
whose code-unit slice is unchanged by `trim`, `copyText`; `deleteText`;
`pasteText` at the same position restores the document exactly.  (The claim's
general form is refuted by `c4_roundtrip_loses_whitespace`.) -/
theorem c4_roundtrip_single_run_restores (text : List Nat) (a b : Nat)
    (σ : Style) (y : Int)
    (hsur : ∀ u ∈ text, isHighSurrogate u = false)
    (hab : a ≤ b) (hb : b ≤ text.length)
    (htrim : jsTrim (sliceCU text a b) = sliceCU text a b) :
    ∃ cb : ClipboardData,
      copyText segmentUnits ⟨[⟨text, [⟨text.length, σ⟩], y⟩]⟩
          ⟨0, (a : Nat)⟩ ⟨0, (b : Nat)⟩ = .ok cb ∧
      Except.bind
          (deleteText segmentUnits ⟨[⟨text, [⟨text.length, σ⟩], y⟩]⟩
            ⟨0, (a : Nat)⟩ ⟨0, (b : Nat)⟩)
          (fun d2 => pasteText d2 ⟨0, (a : Nat)⟩ cb) =
        .ok ⟨[⟨text, [⟨text.length, σ⟩], y⟩]⟩ := by
  have hbind : ∀ (x : Document) (f : Document → Except DocErr Document),
      Except.bind (Except.ok x) f = f x := fun x f => rfl
  have htake : (text.take a).length = a := by
    rw [List.length_take]
    omega
  have hplen : a ≤ (text.take a ++ text.drop b).length := by
    rw [List.length_append, List.length_take, List.length_drop]
    omega
  refine ⟨_, copyText_single text a b σ y hsur hab hb, ?_⟩
  rw [deleteText_single text a b σ y hsur hab hb, hbind]
  rw [extractTextRange_single text text.length a b σ y hab hb]
  by_cases han : a < text.length
  · rw [if_pos han, htrim]
    by_cases hc2 : 0 < text.length - (b - a)
    · rw [if_pos hc2]
      by_cases hlt : a < b
      · rw [if_pos hlt]
        rw [pasteText_single _ _ a hplen]
        dsimp only
        rw [List.take_left' htake, List.drop_left' htake, slice_glue text a b hab]
        rw [insertRuns_single_uniform (text.length - (b - a)) a σ [⟨b - a, σ⟩]
          (by
            intro x hx
            obtain rfl := List.mem_singleton.mp hx
            rfl)
          (by omega)]
        rw [runTotal_singleton]
        simp only [Except.ok.injEq, Document.mk.injEq, List.cons.injEq,
          Paragraph.mk.injEq, Run.mk.injEq, and_true, true_and, and_self]
        omega
      · rw [if_neg hlt]
        rw [pasteText_single _ _ a hplen]
        dsimp only
        rw [List.take_left' htake, List.drop_left' htake, slice_glue text a b hab]
        rw [insertRuns_single_uniform (text.length - (b - a)) a σ []
          (by
            intro x hx
            exact absurd hx (List.not_mem_nil x))
          (by omega)]
        rw [show runTotal [] = 0 from rfl]
        simp only [Except.ok.injEq, Document.mk.injEq, List.cons.injEq,
          Paragraph.mk.injEq, Run.mk.injEq, and_true, true_and, and_self]
        omega
    · rw [if_neg hc2]
      rw [if_pos (show a < b by omega)]
      rw [pasteText_single _ _ a hplen]
      dsimp only
      rw [List.take_left' htake, List.drop_left' htake, slice_glue text a b hab]
      rw [insertRuns_nil_uniform _ σ [⟨b - a, σ⟩] (List.cons_ne_nil _ _)
        (by
          intro x hx
          obtain rfl := List.mem_singleton.mp hx
          rfl)]
      rw [runTotal_singleton]
      simp only [Except.ok.injEq, Document.mk.injEq, List.cons.injEq,
        Paragraph.mk.injEq, Run.mk.injEq, and_true, true_and, and_self]
      omega
  · rw [if_neg han, htrim]
    have hsl : sliceCU text a b = [] := by
      unfold sliceCU
      apply List.drop_eq_nil_of_le
      rw [List.length_take]
      omega
    rw [hsl]
    rw [show getGraphemeCount segmentUnits [] = 0 from rfl]
    rw [show text.length - (b - a) = text.length from by omega]
    have htext : text.take a ++ text.drop b = text := by
      rw [show b = a from by omega, List.take_append_drop]
    by_cases hn : 0 < text.length
    · rw [if_pos hn]
      rw [pasteText_single _ _ a hplen]
      dsimp only
      rw [List.take_left' htake, List.drop_left' htake, List.append_nil]
      rw [show text.take a ++ text.drop b = text from htext]
      rw [insertRuns_single_uniform text.length a σ [⟨0, σ⟩]
        (by
          intro x hx
          obtain rfl := List.mem_singleton.mp hx
          rfl)
        (by omega)]
      rw [runTotal_singleton]
      simp only [Except.ok.injEq, Document.mk.injEq, List.cons.injEq,
        Paragraph.mk.injEq, Run.mk.injEq, and_true, true_and, and_self]
      omega
    · rw [if_neg hn]
      rw [pasteText_single _ _ a hplen]
      dsimp only
      rw [List.take_left' htake, List.drop_left' htake, List.append_nil]
      rw [show text.take a ++ text.drop b = text from htext]
      rw [insertRuns_nil_uniform _ σ [⟨0, σ⟩] (List.cons_ne_nil _ _)
        (by
          intro x hx
          obtain rfl := List.mem_singleton.mp hx
          rfl)]
      rw [runTotal_singleton]
      simp only [Except.ok.injEq, Document.mk.injEq, List.cons.injEq,
        Paragraph.mk.injEq, Run.mk.injEq, and_true, true_and, and_self]
      omega
/-- Witness for C4: the round-trip on `"abc"` (single run of `{fontSize:16}`)
over the range `[1, 2)` restores the document exactly. -/
theorem c4_roundtrip_single_run_restores_witness :
    (∀ u ∈ ([97, 98, 99] : List Nat), isHighSurrogate u = false) ∧
    (1 : Nat) ≤ 2 ∧ (2 : Nat) ≤ ([97, 98, 99] : List Nat).length ∧
    jsTrim (sliceCU ([97, 98, 99] : List Nat) 1 2) =
      sliceCU ([97, 98, 99] : List Nat) 1 2 ∧
    (∃ cb : ClipboardData,
      copyText segmentUnits
          ⟨[⟨[97, 98, 99], [⟨([97, 98, 99] : List Nat).length, styleSixteen⟩], 0⟩]⟩
          ⟨0, ((1 : Nat) : Int)⟩ ⟨0, ((2 : Nat) : Int)⟩ = .ok cb ∧
      Except.bind
          (deleteText segmentUnits
            ⟨[⟨[97, 98, 99], [⟨([97, 98, 99] : List Nat).length, styleSixteen⟩], 0⟩]⟩
            ⟨0, ((1 : Nat) : Int)⟩ ⟨0, ((2 : Nat) : Int)⟩)
          (fun d2 => pasteText d2 ⟨0, ((1 : Nat) : Int)⟩ cb) =
        .ok ⟨[⟨[97, 98, 99], [⟨([97, 98, 99] : List Nat).length, styleSixteen⟩], 0⟩]⟩) :=
  ⟨by decide, by decide, by decide, by decide,
    c4_roundtrip_single_run_restores [97, 98, 99] 1 2 styleSixteen 0
      (by decide) (by decide) (by decide) (by decide)⟩
